import Mathlib

/-!
# Verification of the EPUB stylesheet-cascade and formatting-extraction engine

Shallow embedding of `src/primal_hunter/scripts/process_epub_styles.py`:
the property normalizer, the CSS rule parser and grouper, the cascade
resolver and the formatting emitter, together with proofs of the spec's
claims about them.

Python strings are modelled through explicit `List Char` primitives that
mirror the semantics of `str.strip`, `str.lower`, `str.split`,
`str.isdigit` and friends (restricted to the ASCII fragment that the
engine manipulates).  Python dicts are modelled as association lists with
Python's insertion-order semantics (`d[k] = v` updates in place when the
key exists, appends otherwise).  Fallible code (the `IndexError` reachable
in `_normalize_property`) is modelled with `Option`.
-/

namespace PH

/-! ## Python string primitives (character level) -/

/-- Whitespace characters recognised by Python's `str.strip`/`str.split`
(ASCII fragment: space, tab, linefeed, vertical tab, formfeed, carriage
return). -/
def pyIsSpace (c : Char) : Bool :=
  c.toNat = 32 || c.toNat = 9 || c.toNat = 10 || c.toNat = 11 || c.toNat = 12 || c.toNat = 13

/-- Build a `Char` from a scalar value below the surrogate range. -/
def mkChar (n : Nat) (h : n < 55296) : Char :=
  ⟨⟨⟨n, by omega⟩⟩, Or.inl (by simp [UInt32.toNat, UInt32.val]; omega)⟩

/-- ASCII lower-casing of one character, the fragment of Python's
`str.lower` exercised by the engine. -/
def pyLowerChar (c : Char) : Char :=
  if h : 65 ≤ c.toNat ∧ c.toNat ≤ 90 then mkChar (c.toNat + 32) (by omega) else c

/-- `str.lower` on a character list. -/
def pyLowerL (l : List Char) : List Char := l.map pyLowerChar

/-- `str.strip()` on a character list: drop whitespace from both ends. -/
def pyStripL (l : List Char) : List Char :=
  ((l.dropWhile pyIsSpace).reverse.dropWhile pyIsSpace).reverse

/-- Split a character list at every character satisfying `p`, keeping
empty pieces — the core of Python's `str.split(sep)` for a one-character
separator (`p := (· == sep)`). -/
def pySplitPred (p : Char → Bool) : List Char → List (List Char)
  | [] => [[]]
  | c :: rest =>
    if p c then [] :: pySplitPred p rest
    else
      match pySplitPred p rest with
      | [] => [[c]]
      | piece :: pieces => (c :: piece) :: pieces

/-- Python's `str.split()` with no separator: split on whitespace runs and
drop empty pieces. -/
def pySplitWsL (l : List Char) : List (List Char) :=
  (pySplitPred pyIsSpace l).filter (fun piece => !piece.isEmpty)

/-- Does `pre` occur at the head of `l`? -/
def headMatches : List Char → List Char → Bool
  | [], _ => true
  | _ :: _, [] => false
  | p :: ps, c :: cs => p == c && headMatches ps cs

/-- Recursion core of Python's `str.split(sep)` for a non-empty
separator: split at every non-overlapping occurrence, left to right.
Structural on a fuel parameter so that the definition reduces
definitionally; every step consumes at least one character, so any fuel
of at least the list's length gives the untruncated behaviour. -/
def pySplitStrGo (sep : List Char) : Nat → List Char → List (List Char)
  | _, [] => [[]]
  | 0, l => [l]
  | fuel + 1, c :: rest =>
    if sep.isEmpty then [c :: rest]
    else if headMatches sep (c :: rest) then
      [] :: pySplitStrGo sep fuel ((c :: rest).drop sep.length)
    else
      match pySplitStrGo sep fuel rest with
      | [] => [[c]]
      | piece :: pieces => (c :: piece) :: pieces

/-- Python's `str.split(sep)` for a non-empty multi-character separator. -/
def pySplitStr (sep l : List Char) : List (List Char) :=
  pySplitStrGo sep l.length l

/-- Split at the first occurrence of character `c` — Python's
`str.split(c, 1)` when `c` occurs. -/
def splitOnceChar (c : Char) : List Char → List Char × List Char
  | [] => ([], [])
  | d :: rest =>
    if d == c then ([], rest)
    else
      let r := splitOnceChar c rest
      (d :: r.1, r.2)

/-- Join pieces with a single separator character — Python's
`sep.join(pieces)` for a one-character separator. -/
def interL (c : Char) : List (List Char) → List Char
  | [] => []
  | [piece] => piece
  | piece :: pieces => piece ++ c :: interL c pieces

/-- Python's `str.isdigit` (ASCII fragment): non-empty and all digits. -/
def pyIsDigitL (l : List Char) : Bool :=
  !l.isEmpty && l.all (fun c => 48 ≤ c.toNat && c.toNat ≤ 57)

/-- Decimal value of a digit string — Python's `int(...)` on strings
accepted by `isdigit`. -/
def pyParseDigits (l : List Char) : Nat :=
  l.foldl (fun n c => n * 10 + (c.toNat - 48)) 0

/-! ## Python string primitives (string level) -/

/-- `str.strip()`. -/
def pyStrip (s : String) : String := ⟨pyStripL s.data⟩

/-- `str.lower()` (ASCII fragment). -/
def pyLower (s : String) : String := ⟨pyLowerL s.data⟩

/-- Python's `needle in hay` substring test (for non-empty `needle`). -/
def pyInStr (needle hay : String) : Bool :=
  (pySplitStr needle.data hay.data).length != 1

/-- `" ".join(s.split())`: collapse internal whitespace runs to single
spaces and trim both ends. -/
def normWs (s : String) : String :=
  ⟨interL ' ' (pySplitWsL s.data)⟩

/-! ## Python dicts as insertion-ordered association lists -/

/-- A Python dict with string keys: an association list in insertion
order.  `PropertyDict` in the source. -/
abbrev PropertyDict := List (String × String)

/-- Dict lookup (`d.get(k)`): value of the first entry with key `k`. -/
def dget {κ α : Type} [BEq κ] (d : List (κ × α)) (k : κ) : Option α :=
  (d.find? (fun p => p.1 == k)).map (·.2)

/-- Dict assignment (`d[k] = v`): update in place when the key exists
(every occurrence, which is unique for dict-shaped lists), append
otherwise. -/
def dinsert {κ α : Type} [BEq κ] (d : List (κ × α)) (k : κ) (v : α) : List (κ × α) :=
  if d.any (fun p => p.1 == k) then
    d.map (fun p => if p.1 == k then (k, v) else p)
  else d ++ [(k, v)]

/-- Dict key deletion (`del d[k]` / `d.pop(k, None)`). -/
def ddel {κ α : Type} [BEq κ] (d : List (κ × α)) (k : κ) : List (κ × α) :=
  d.filter (fun p => p.1 != k)

/-- The key list of a dict. -/
def dkeys {κ α : Type} (d : List (κ × α)) : List κ := d.map (·.1)

/-- Keys are pairwise distinct (true of every genuine Python dict). -/
abbrev NodupKeys {κ α : Type} (d : List (κ × α)) : Prop := (dkeys d).Nodup

/-- `dict(pairs)`: build a dict from a pair list, later entries winning. -/
def pydict {κ α : Type} [BEq κ] (l : List (κ × α)) : List (κ × α) :=
  l.foldl (fun acc p => dinsert acc p.1 p.2) []

/-- `merge_styles` (source lines 451–463): a fresh dict holding `base`
updated by `extra` — `result = dict(base); result.update(extra)`.  Pure:
neither argument is modified (automatic in this embedding). -/
def merge_styles (base extra : PropertyDict) : PropertyDict :=
  extra.foldl (fun acc p => dinsert acc p.1 p.2) base

/-- Python's `<` on strings: lexicographic comparison of code points. -/
def lexLt : List Char → List Char → Bool
  | [], [] => false
  | [], _ :: _ => true
  | _ :: _, [] => false
  | a :: as, b :: bs => a.toNat < b.toNat || (a == b && lexLt as bs)

/-- Python's `<` on `String`. -/
def strLtB (a b : String) : Bool := lexLt a.data b.data

/-- Python's `<=` on `String`. -/
def strLeB (a b : String) : Bool := strLtB a b || a == b

/-- Python's `<=` on strings, as a relation for `List.insertionSort`. -/
def strLe (a b : String) : Prop := strLeB a b = true

instance : DecidableRel strLe := fun a b => by unfold strLe; infer_instance

/-- Python's ordering on `(key, value)` string pairs, used by
`sorted(d.items())` (tuples compare lexicographically). -/
def pairLe (p q : String × String) : Prop :=
  (strLtB p.1 q.1 || (p.1 == q.1 && strLeB p.2 q.2)) = true

instance : DecidableRel pairLe := fun p q => by unfold pairLe; infer_instance

/-- `sorted(d.items())`. -/
def sortPairs (d : PropertyDict) : PropertyDict := d.insertionSort pairLe

/-- Extensional equality of dicts — Python's `==` on dicts. -/
def PropEq (a b : PropertyDict) : Prop := ∀ k, dget a k = dget b k

/-- `sorted(strings)` with Python's code-point lexicographic order. -/
def sortStrings (l : List String) : List String := l.insertionSort strLe

/-! ## Property Normalizer (source lines 336–370 and 498–536) -/

/-- The four tracked property families. -/
def INTERESTING : List String :=
  ["font-weight", "font-style", "text-decoration", "text-align"]

/-- `value.strip().lower().split("!important")[0].strip()` — the cleanup
performed at the top of `_normalize_property`. -/
def cleanValue (value : String) : List Char :=
  pyStripL
    (match pySplitStr "!important".data (pyLowerL (pyStripL value.data)) with
     | [] => []
     | piece :: _ => piece)

/-- `_normalize_property` (source lines 336–370).  Returns `none` exactly
where the Python raises: `cleaned_value.split()[0]` on a `text-align`
value with no whitespace-delimited token (`IndexError`). -/
def _normalize_property (name : String) (value : String) : Option PropertyDict :=
  let cleaned : String := ⟨cleanValue value⟩
  if name = "font-weight" then
    if pyIsDigitL cleaned.data then
      some (if 400 < pyParseDigits cleaned.data then [("font-weight", "bold")] else [])
    else if cleaned = "bold" ∨ cleaned = "bolder" then some [("font-weight", "bold")]
    else some []
  else if name = "font-style" then
    some (if pyInStr "italic" cleaned || pyInStr "oblique" cleaned
          then [("font-style", "italic")] else [])
  else if name = "text-decoration" then
    some (if pyInStr "underline" cleaned then [("text-decoration", "underline")] else [])
  else if name = "text-align" then
    match pySplitWsL cleaned.data with
    | [] => none
    | a :: _ => some [("text-align", (⟨a⟩ : String))]
  else some []

/-- `bold_values` (source line 498). -/
def bold_values : List String := ["bold", "700", "600", "800", "900"]

/-- `italic_values` (source line 499). -/
def italic_values : List String := ["italic", "oblique"]

/-- The `font-weight` block of `normalize_tracked_properties` (source
lines 505–507). -/
def ntpFW (style n : PropertyDict) : PropertyDict :=
  match dget style "font-weight" with
  | some fw =>
    if fw ≠ "" ∧ pyLower (pyStrip fw) ∈ bold_values
    then dinsert n "font-weight" "bold" else n
  | none => n

/-- The `font-style` block of `normalize_tracked_properties` (source
lines 509–511). -/
def ntpFS (style n : PropertyDict) : PropertyDict :=
  match dget style "font-style" with
  | some fs =>
    if fs ≠ "" ∧ pyLower (pyStrip fs) ∈ italic_values
    then dinsert n "font-style" "italic" else n
  | none => n

/-- The `text-decoration` block of `normalize_tracked_properties`
(source lines 513–515). -/
def ntpTD (style n : PropertyDict) : PropertyDict :=
  match dget style "text-decoration" with
  | some td =>
    if td ≠ "" ∧ pyInStr "underline" (pyLower td) = true
    then dinsert n "text-decoration" "underline" else n
  | none => n

/-- The `text-align` block of `normalize_tracked_properties` (source
lines 517–519). -/
def ntpTA (style n : PropertyDict) : PropertyDict :=
  match dget style "text-align" with
  | some ta => if ta ≠ "" then dinsert n "text-align" (pyStrip ta) else n
  | none => n

/-- `normalize_tracked_properties` (source lines 501–520): the inline-
style/cascade-path reduction of a computed style to the tracked
properties.  Python's `if font_weight:` truthiness is presence plus
non-emptiness. -/
def normalize_tracked_properties (style : PropertyDict) : PropertyDict :=
  ntpTA style (ntpTD style (ntpFS style (ntpFW style [])))

/-- `labels_from_style` (source lines 522–536). -/
def labels_from_style (style : PropertyDict) : List String :=
  let l0 : List String := []
  let l1 :=
    match dget style "font-weight" with
    | some fw => if fw ≠ "" ∧ pyLower (pyStrip fw) ∈ bold_values then l0 ++ ["bold"] else l0
    | none => l0
  let l2 :=
    match dget style "font-style" with
    | some fs => if fs ≠ "" ∧ pyLower (pyStrip fs) ∈ italic_values then l1 ++ ["italic"] else l1
    | none => l1
  let l3 :=
    match dget style "text-decoration" with
    | some td => if td ≠ "" ∧ pyInStr "underline" (pyLower td) = true then l2 ++ ["underline"] else l2
    | none => l2
  match dget style "text-align" with
  | some ta => if ta ≠ "" then l3 ++ ["text-align:" ++ pyStrip ta] else l3
  | none => l3

/-- `features_from_tag` (source lines 432–448): formatting implied by the
tag name itself. -/
def features_from_tag (name : String) : PropertyDict :=
  let n := pyLower name
  if n = "b" ∨ n = "strong" then [("font-weight", "bold")]
  else if n = "i" ∨ n = "em" then [("font-style", "italic")]
  else if n = "u" then [("text-decoration", "underline")]
  else []

/-- One `;`-separated declaration of a raw `style` attribute (the loop
body of `parse_inline_style`, source lines 415–427): skip blank or
colon-free parts, split once on `:`, strip and lower-case both sides,
drop empty keys or values. -/
def inlineDeclStep (styles : PropertyDict) (part : List Char) : PropertyDict :=
  if (pyStripL part).isEmpty || !(part.any (fun c => c == ':')) then styles
  else
    let kv := splitOnceChar ':' part
    let key : String := ⟨pyLowerL (pyStripL kv.1)⟩
    let val : String := ⟨pyLowerL (pyStripL kv.2)⟩
    if key.isEmpty || val.isEmpty then styles
    else dinsert styles key val

/-- `parse_inline_style` (source lines 408–429): split a raw `style`
attribute on `;`, then each declaration once on `:`; keys and values are
stripped and lower-cased; empty keys or values are dropped. -/
def parse_inline_style (styleValue : Option String) : PropertyDict :=
  match styleValue with
  | none => []
  | some s =>
    if s.isEmpty then []
    else (pySplitPred (fun c => c == ';') s.data).foldl inlineDeclStep []

/-! ## Selector matching

The source delegates matching to `soup.select`; the spec (§2 item 3,
§4.2) treats the selector engine as an external black box over simple
selectors (tag, `.class`, `#id`).  We model exactly that fragment; any
other selector string is reported as unsupported, which the source
catches per-selector and skips (lines 486–490). -/

/-- A simple selector. -/
inductive Selector where
  | tagName (name : String)
  | className (name : String)
  | idName (name : String)
deriving DecidableEq

/-- Characters allowed in a simple tag/class/id token. -/
def isIdentChar (c : Char) : Bool := c.isAlphanum || c == '-' || c == '_'

/-- Modelled selector engine front end: recognise simple selectors,
report anything else as unsupported (`none`). -/
def parseSimpleSelector (s : String) : Option Selector :=
  match s.data with
  | [] => none
  | '.' :: rest =>
    if !rest.isEmpty && rest.all isIdentChar then some (.className ⟨rest⟩) else none
  | '#' :: rest =>
    if !rest.isEmpty && rest.all isIdentChar then some (.idName ⟨rest⟩) else none
  | l => if l.all isIdentChar then some (.tagName ⟨l⟩) else none

/-- Does a simple selector match an element with the given tag name and
attributes?  Class attributes hold whitespace-separated class tokens. -/
def matchesSelector : Selector → String → List (String × String) → Bool
  | .tagName t, name, _ => name == t
  | .className c, _, attrs =>
    match dget attrs "class" with
    | some cv => (pySplitWsL cv.data).any (fun w => (⟨w⟩ : String) == c)
    | none => false
  | .idName i, _, attrs => dget attrs "id" == some i

/-- The selector-to-style mapping (`SelectorStyles` in the source), in
dict insertion order. -/
abbrev SelectorStyleMap := List (String × PropertyDict)

/-- One selector-map entry applied to one element (the loop body of
source lines 483–493): unsupported selectors are skipped, matching ones
merge their style rightmost-wins. -/
def selStep (name : String) (attrs : List (String × String))
    (acc : PropertyDict) (entry : String × PropertyDict) : PropertyDict :=
  match parseSimpleSelector entry.1 with
  | none => acc
  | some sel =>
    if matchesSelector sel name attrs then merge_styles acc entry.2 else acc

/-- The selector-derived style of one element (source lines 483–493):
every selector of the map is tried in iteration order; matches are merged
rightmost-wins; unsupported selectors are skipped. -/
def elementStyleFor (selmap : SelectorStyleMap) (name : String)
    (attrs : List (String × String)) : PropertyDict :=
  selmap.foldl (selStep name attrs) []

/-! ## Formatting Emitter: per-element attribute rewrite
(source lines 538–588) -/

/-- `f"{prop}:{val}"` for one final style entry (source line 577). -/
def encodeDecl (p : String × String) : List Char :=
  p.1.data ++ ':' :: p.2.data

/-- `";".join(f"{prop}:{val}" for sorted items) + ";"` (source lines
577–578). -/
def serializeStyle (final : PropertyDict) : String :=
  ⟨interL ';' ((sortPairs final).map encodeDecl) ++ [';']⟩

/-- The computed style of one element (source lines 550–556): selector-
derived styles, overridden by the inline `style` attribute, overridden
by tag-implied features. -/
def computedOf (selmap : SelectorStyleMap) (name : String)
    (attrs : List (String × String)) : PropertyDict :=
  merge_styles
    (merge_styles (elementStyleFor selmap name attrs)
      (parse_inline_style (dget attrs "style")))
    (features_from_tag name)

/-- The final style dict written back to an element (source lines
567–575): untracked computed properties first, then the normalized
tracked properties. -/
def finalOf (computed : PropertyDict) : PropertyDict :=
  merge_styles
    (computed.filter (fun p => (dget (normalize_tracked_properties computed) p.1).isNone))
    (normalize_tracked_properties computed)

/-- The element loop body of `apply_styles_to_soup` (source lines
538–588) as a pure attribute transformer.  The `tag_cascaded_styles`
bookkeeping of those lines is written but never read by any output path
(the text-node loop recomputes the cascade), so it has no observable
effect and is omitted. -/
def rewriteAttrs (selmap : SelectorStyleMap) (name : String)
    (attrs : List (String × String)) : List (String × String) :=
  let computed := computedOf selmap name attrs
  if computed.isEmpty then ddel attrs "class"
  else
    let finalStyle := finalOf computed
    let attrs1 :=
      if finalStyle.isEmpty then ddel attrs "style"
      else dinsert attrs "style" (serializeStyle finalStyle)
    ddel attrs1 "class"

/-- A parsed DOM node: an element with a tag name, attribute dict and
children, or a text node. -/
inductive Node where
  | elem (name : String) (attrs : List (String × String)) (children : List Node)
  | textNode (s : String)

mutual

/-- Apply the element loop of `apply_styles_to_soup` to every element of
the tree (the loop visits elements in document order and each rewrite
depends only on the element's own original attributes). -/
def rewriteNode (selmap : SelectorStyleMap) : Node → Node
  | .textNode s => .textNode s
  | .elem name attrs children =>
    .elem name (rewriteAttrs selmap name attrs) (rewriteNodes selmap children)

/-- `rewriteNode` mapped over a child list. -/
def rewriteNodes (selmap : SelectorStyleMap) : List Node → List Node
  | [] => []
  | n :: ns => rewriteNode selmap n :: rewriteNodes selmap ns

end

/-- A formatted-text record (`FormattedEntry` in the source). -/
structure FormattedEntry where
  book : Nat
  chapter : Nat
  element : String
  text : String
  format : String
deriving DecidableEq

/-- The contribution of one ancestor inside the text-node loop (source
lines 614–628): selector-derived style (from the pre-mutation match
table), then the ancestor's inline style attribute *as rewritten by the
element loop*, then tag-implied features.  The rewritten attribute equals
`rewriteAttrs` of the original attributes, since the element loop is a
pure per-element transformation. -/
def ancCombined (selmap : SelectorStyleMap) (name : String)
    (attrs : List (String × String)) : PropertyDict :=
  merge_styles
    (merge_styles (elementStyleFor selmap name attrs)
      (parse_inline_style (dget (rewriteAttrs selmap name attrs) "style")))
    (features_from_tag name)

/-- `", ".join(sorted(labels))` (source line 642). -/
def labelsJoin (labels : List String) : String :=
  String.intercalate ", " (sortStrings labels)

/-- The text-node loop body of `apply_styles_to_soup` (source lines
590–644): normalize whitespace, skip empty text, fold the ancestor chain
root-to-parent (nearer ancestor wins), reduce to labels, skip empty label
sets.  `ancestors` lists `(tag name, original attributes)` from the
document root down to the immediate parent; an empty list corresponds to
a text node whose parent is not a tag, which the source skips. -/
def entryForText (selmap : SelectorStyleMap) (book chapter : Nat)
    (ancestors : List (String × List (String × String))) (raw : String) :
    Option FormattedEntry :=
  let ntext := normWs raw
  if ntext.isEmpty then none
  else
    match ancestors.getLast? with
    | none => none
    | some parent =>
      let cascaded := ancestors.foldl
        (fun acc anc => merge_styles acc (ancCombined selmap anc.1 anc.2)) []
      let tracked := normalize_tracked_properties cascaded
      let labels := labels_from_style tracked
      if labels.isEmpty then none
      else some {
        book := book, chapter := chapter, element := parent.1,
        text := ntext, format := labelsJoin labels }

mutual

/-- Collect the formatted entries of every text node below `n`, with
`ancestors` the chain of `(name, original attributes)` above `n`. -/
def collectEntriesNode (selmap : SelectorStyleMap) (book chapter : Nat)
    (ancestors : List (String × List (String × String))) : Node → List FormattedEntry
  | .textNode s => (entryForText selmap book chapter ancestors s).toList
  | .elem name attrs children =>
    collectEntriesList selmap book chapter (ancestors ++ [(name, attrs)]) children

/-- `collectEntriesNode` over a child list, in document order. -/
def collectEntriesList (selmap : SelectorStyleMap) (book chapter : Nat)
    (ancestors : List (String × List (String × String))) : List Node → List FormattedEntry
  | [] => []
  | n :: ns =>
    collectEntriesNode selmap book chapter ancestors n ++
      collectEntriesList selmap book chapter ancestors ns

end

/-- `apply_styles_to_soup` (source lines 466–647): the rewritten tree and
the collected formatted entries. -/
def apply_styles_to_soup (soup : Node) (selmap : SelectorStyleMap)
    (book chapter : Nat) : Node × List FormattedEntry :=
  (rewriteNode selmap soup, collectEntriesNode selmap book chapter [] soup)

/-! ## Well-formed styles

The selector-style map handed to `apply_styles_to_soup` is built by
`parse_css_sources`, whose property names come from the fixed tracked
list and whose values pass through `_normalize_property` (stripped,
lower-cased, taken from a whitespace-split token): every key and value
is non-empty, already stripped and lower-cased, and free of the `;` and
`:` structure characters.  The predicates below state exactly that
invariant of the map. -/

/-- A well-formed property name: non-empty, free of `;` and `:`, fixed
by `lower()` and by `strip()`. -/
def wfKey (k : String) : Prop :=
  k ≠ "" ∧ (∀ c ∈ k.data, c ≠ ';' ∧ c ≠ ':') ∧
    pyLowerL k.data = k.data ∧ pyStripL k.data = k.data

/-- A well-formed property value: non-empty, free of `;`, fixed by
`lower()` and by `strip()`. -/
def wfVal (v : String) : Prop :=
  v ≠ "" ∧ (∀ c ∈ v.data, c ≠ ';') ∧
    pyLowerL v.data = v.data ∧ pyStripL v.data = v.data

/-- Every entry of a property dict is well-formed. -/
def WFDict (d : PropertyDict) : Prop := ∀ p ∈ d, wfKey p.1 ∧ wfVal p.2

/-- Every style of a selector-style map is well-formed. -/
def WFSelMap (m : SelectorStyleMap) : Prop := ∀ e ∈ m, WFDict e.2

instance : DecidablePred wfKey := fun k => by unfold wfKey; infer_instance

instance : DecidablePred wfVal := fun v => by unfold wfVal; infer_instance

instance : DecidablePred WFDict := fun d => by unfold WFDict; infer_instance

instance : DecidablePred WFSelMap := fun m => by unfold WFSelMap; infer_instance

mutual

/-- Every element of the tree has a genuine dict as its attributes
(pairwise-distinct keys). -/
def nodeWFB : Node → Bool
  | .textNode _ => true
  | .elem _ attrs children => decide (NodupKeys attrs) && nodesWFB children

/-- `nodeWFB` over a child list. -/
def nodesWFB : List Node → Bool
  | [] => true
  | n :: ns => nodeWFB n && nodesWFB ns

end

mutual

/-- No element of the tree carries a `class` attribute. -/
def noClassNodeB : Node → Bool
  | .textNode _ => true
  | .elem _ attrs children => (dget attrs "class").isNone && noClassNodesB children

/-- `noClassNodeB` over a child list. -/
def noClassNodesB : List Node → Bool
  | [] => true
  | n :: ns => noClassNodeB n && noClassNodesB ns

end

/-! ## Rule Parser & Grouper (source lines 182–333) -/

/-- A style group: a property dict and the selectors that produced it. -/
structure StyleGroup where
  properties : PropertyDict
  selectors : List String
deriving DecidableEq

/-- Update-in-place of one dict entry, keeping its position. -/
def dmodify {κ α : Type} [BEq κ] (d : List (κ × α)) (k : κ) (f : α → α) : List (κ × α) :=
  d.map (fun p => if p.1 == k then (p.1, f p.2) else p)

/-- The loop body of `collapse_style_groups` (source lines 322–325):
`collapsed.setdefault(props_items, set()).update(selectors)` over an
insertion-ordered table keyed by the sorted item tuple. -/
def collapseStep (acc : List (PropertyDict × List String)) (group : StyleGroup) :
    List (PropertyDict × List String) :=
  let propsItems := sortPairs (pydict group.properties)
  let acc1 := if (dget acc propsItems).isSome then acc
              else acc ++ [(propsItems, ([] : List String))]
  dmodify acc1 propsItems (fun sels => sels ++ group.selectors)

/-- `collapse_style_groups` (source lines 312–333): bucket groups by the
sorted item tuple of their property dict (a Python dict keyed by that
tuple, hence insertion-ordered), union the selector sets, and emit the
buckets with sorted selector tuples. -/
def collapse_style_groups (groups : List StyleGroup) : List StyleGroup :=
  (groups.foldl collapseStep ([] : List (PropertyDict × List String))).map (fun entry =>
    { properties := pydict entry.1
      selectors := sortStrings entry.2.eraseDups })

/-- A parsed CSS rule, as handed back by the external CSS parser: a style
rule with its selector list and declarations, or any other rule kind
(skipped by `_merge_sheet`). -/
inductive CssRule where
  | styleRule (selectors : List String) (decls : List (String × String))
  | otherRule
deriving DecidableEq

/-- A parsed stylesheet. -/
abbrev Sheet := List CssRule

/-- The internal grouping table: sorted property tuple ↦ (properties,
selector list), in insertion order. -/
abbrev GroupedStyles := List (PropertyDict × (PropertyDict × List String))

/-- One rule's declarations reduced by the normalizer (`_merge_sheet`
lines 286–291); `none` propagates the normalizer's reachable
`IndexError`. -/
def normalizedPropsOfDecls (decls : List (String × String)) : Option PropertyDict :=
  decls.foldl
    (fun acc decl =>
      acc.bind (fun props =>
        let nm := pyLower decl.1
        if nm ∈ INTERESTING then
          (_normalize_property nm decl.2).map (fun np => merge_styles props np)
        else some props))
    (some [])

/-- `_merge_sheet` for a single rule (source lines 282–309). -/
def mergeRuleState (st : SelectorStyleMap × GroupedStyles) :
    CssRule → Option (SelectorStyleMap × GroupedStyles)
  | .otherRule => some st
  | .styleRule sels decls =>
    (normalizedPropsOfDecls decls).map (fun np =>
      if np.isEmpty then st
      else
        let key := sortPairs np
        let grouped := if (dget st.2 key).isSome then st.2 else st.2 ++ [(key, (np, []))]
        sels.foldl
          (fun st2 sel =>
            let selText := pyStrip sel
            if selText.isEmpty then st2
            else
              let grouped2 := dmodify st2.2 key (fun g => (g.1, g.2 ++ [selText]))
              let existing := (dget st2.1 selText).getD []
              (dinsert st2.1 selText (merge_styles existing np), grouped2))
          (st.1, grouped))

/-- `_merge_sheet` over a whole sheet (source lines 270–309). -/
def mergeSheetState (st : SelectorStyleMap × GroupedStyles) (sheet : Sheet) :
    Option (SelectorStyleMap × GroupedStyles) :=
  sheet.foldl (fun ost rule => ost.bind (fun s => mergeRuleState s rule)) (some st)

/-- Strict Python comparison of `(key, value)` pairs. -/
def pairLtB (a b : String × String) : Bool :=
  strLtB a.1 b.1 || (a.1 == b.1 && strLtB a.2 b.2)

/-- Strict Python comparison of pair tuples (lexicographic). -/
def pkeyLtB : List (String × String) → List (String × String) → Bool
  | [], [] => false
  | [], _ :: _ => true
  | _ :: _, [] => false
  | x :: xs, y :: ys => if pairLtB x y then true else if x == y then pkeyLtB xs ys else false

/-- The group ordering used by `parse_css_sources` (sort by the sorted
property tuple, ascending). -/
def groupLe (a b : PropertyDict × (PropertyDict × List String)) : Prop :=
  (pkeyLtB a.1 b.1 || a.1 == b.1) = true

instance : DecidableRel groupLe := fun a b => by unfold groupLe; infer_instance

/-- The per-file step of `parse_css_sources` (source lines 207–229): a
file whose parse failed is logged and skipped, otherwise its sheet is
merged. -/
def fileStep (ost : Option (SelectorStyleMap × GroupedStyles)) (file : Option Sheet) :
    Option (SelectorStyleMap × GroupedStyles) :=
  match file with
  | none => ost
  | some sheet => ost.bind (fun st => mergeSheetState st sheet)

/-- The per-inline-block step of `parse_css_sources` (source lines
231–255): blank blocks are skipped before parsing, parse failures are
logged and skipped, otherwise the sheet is merged. -/
def inlineStep (ost : Option (SelectorStyleMap × GroupedStyles))
    (block : String × Option Sheet) : Option (SelectorStyleMap × GroupedStyles) :=
  if (pyStrip block.1).isEmpty then ost
  else
    match block.2 with
    | none => ost
    | some sheet => ost.bind (fun st => mergeSheetState st sheet)

/-- `parse_css_sources` (source lines 182–267).  CSS files are modelled
by the external parser's outcome (`none` = unparsable, logged and
skipped); inline blocks carry their raw text (blank blocks are skipped
before parsing) plus their parse outcome. -/
def parse_css_sources (cssFiles : List (Option Sheet))
    (inlineCss : List (String × Option Sheet)) :
    Option (SelectorStyleMap × List StyleGroup) :=
  let st0 : Option (SelectorStyleMap × GroupedStyles) := some ([], [])
  let st1 := cssFiles.foldl fileStep st0
  let st2 := inlineCss.foldl inlineStep st1
  st2.map (fun st =>
    (st.1,
     (st.2.insertionSort groupLe).map (fun entry =>
       { properties := pydict entry.2.1
         selectors := sortStrings entry.2.2.eraseDups })))

/-! ## Dict lemmas -/

section DKeysLemmas

variable {κ α : Type}

@[simp] theorem dkeys_nil : dkeys ([] : List (κ × α)) = [] := rfl

@[simp] theorem dkeys_cons (p : κ × α) (d : List (κ × α)) :
    dkeys (p :: d) = p.1 :: dkeys d := rfl

@[simp] theorem dkeys_append (d e : List (κ × α)) :
    dkeys (d ++ e) = dkeys d ++ dkeys e := by
  simp [dkeys]

theorem mem_dkeys {d : List (κ × α)} {k : κ} :
    k ∈ dkeys d ↔ ∃ v, (k, v) ∈ d := by
  simp only [dkeys, List.mem_map]
  constructor
  · rintro ⟨p, hp, rfl⟩; exact ⟨p.2, hp⟩
  · rintro ⟨v, hv⟩; exact ⟨(k, v), hv, rfl⟩

theorem nodupKeys_cons_iff {p : κ × α} {d : List (κ × α)} :
    NodupKeys (p :: d) ↔ p.1 ∉ dkeys d ∧ NodupKeys d := by
  unfold NodupKeys
  rw [dkeys_cons, List.nodup_cons]

end DKeysLemmas

section DictLemmas

variable {κ α : Type} [BEq κ] [LawfulBEq κ] [DecidableEq κ]

@[simp] theorem dget_nil (k : κ) : dget ([] : List (κ × α)) k = none := rfl

theorem dget_cons (p : κ × α) (d : List (κ × α)) (k : κ) :
    dget (p :: d) k = if p.1 = k then some p.2 else dget d k := by
  by_cases h : p.1 = k
  · simp [dget, List.find?_cons, h]
  · have hb : (p.1 == k) = false := by simpa using h
    simp [dget, List.find?_cons, hb, h]

theorem dget_append (d e : List (κ × α)) (k : κ) :
    dget (d ++ e) k = (dget d k).or (dget e k) := by
  induction d with
  | nil => simp
  | cons p d ih =>
    rw [List.cons_append, dget_cons, dget_cons]
    by_cases h : p.1 = k
    · simp [h]
    · simp [h, ih]

theorem any_key_eq_mem_dkeys (d : List (κ × α)) (k : κ) :
    d.any (fun p => p.1 == k) = true ↔ k ∈ dkeys d := by
  simp [List.any_eq_true, dkeys]

theorem dget_isSome_iff_mem_dkeys (d : List (κ × α)) (k : κ) :
    (dget d k).isSome = true ↔ k ∈ dkeys d := by
  induction d with
  | nil => simp
  | cons p d ih =>
    rw [dget_cons, dkeys_cons]
    by_cases h : p.1 = k
    · simp [h]
    · simp only [h, if_false, List.mem_cons, ih]
      constructor
      · intro hm; exact Or.inr hm
      · rintro (hm | hm)
        · exact absurd hm.symm h
        · exact hm

theorem dget_eq_none_iff_not_mem_dkeys (d : List (κ × α)) (k : κ) :
    dget d k = none ↔ k ∉ dkeys d := by
  rw [← dget_isSome_iff_mem_dkeys]
  cases dget d k <;> simp

theorem dget_map_replace (d : List (κ × α)) (k : κ) (v : α) (k' : κ) :
    dget (d.map (fun p => if p.1 == k then (k, v) else p)) k' =
      if k' = k then (if k ∈ dkeys d then some v else none) else dget d k' := by
  induction d with
  | nil => by_cases h' : k' = k <;> simp [h']
  | cons p d ih =>
    simp only [beq_iff_eq] at ih ⊢
    by_cases h : p.1 = k
    · by_cases h' : k' = k
      · subst h'
        simp [h, dget_cons, ih]
      · simp [h, dget_cons, Ne.symm h', h', ih]
    · by_cases h' : k' = k
      · subst h'
        simp [h, dget_cons, ih, Ne.symm h]
      · simp [h, dget_cons, h', ih]

theorem dget_dinsert (d : List (κ × α)) (k : κ) (v : α) (k' : κ) :
    dget (dinsert d k v) k' = if k' = k then some v else dget d k' := by
  unfold dinsert
  by_cases hc : d.any (fun p => p.1 == k) = true
  · rw [if_pos hc, dget_map_replace]
    have hk : k ∈ dkeys d := (any_key_eq_mem_dkeys d k).mp hc
    by_cases h' : k' = k <;> simp [h', hk]
  · rw [if_neg hc, dget_append]
    have hk : k ∉ dkeys d := fun hm => hc ((any_key_eq_mem_dkeys d k).mpr hm)
    by_cases h' : k' = k
    · subst h'
      rw [(dget_eq_none_iff_not_mem_dkeys d k').mpr hk]
      simp [dget_cons]
    · have hne : ¬k = k' := fun hh => h' hh.symm
      cases hv : dget d k' <;> simp [dget_cons, h', hne, hv]

theorem dkeys_dinsert (d : List (κ × α)) (k : κ) (v : α) :
    dkeys (dinsert d k v) = if k ∈ dkeys d then dkeys d else dkeys d ++ [k] := by
  unfold dinsert
  by_cases hc : d.any (fun p => p.1 == k) = true
  · rw [if_pos hc, if_pos ((any_key_eq_mem_dkeys d k).mp hc)]
    simp only [dkeys, List.map_map]
    apply List.map_congr_left
    intro p _
    by_cases h : p.1 = k <;> simp [h]
  · rw [if_neg hc, if_neg (fun hm => hc ((any_key_eq_mem_dkeys d k).mpr hm))]
    simp [dkeys]

theorem mem_dkeys_dinsert (d : List (κ × α)) (k : κ) (v : α) (k' : κ) :
    k' ∈ dkeys (dinsert d k v) ↔ k' ∈ dkeys d ∨ k' = k := by
  rw [dkeys_dinsert]
  by_cases h : k ∈ dkeys d
  · simp only [h, if_true]
    constructor
    · exact Or.inl
    · rintro (hm | rfl) <;> [exact hm; exact h]
  · simp [h]

theorem nodupKeys_dinsert {d : List (κ × α)} (k : κ) (v : α) (hd : NodupKeys d) :
    NodupKeys (dinsert d k v) := by
  unfold NodupKeys
  rw [dkeys_dinsert]
  by_cases h : k ∈ dkeys d
  · simpa [h] using hd
  · simp only [h, if_false]
    refine List.Nodup.append hd (List.nodup_singleton k) ?_
    intro a ha hb
    simp only [List.mem_singleton] at hb
    subst hb
    exact h ha

theorem dget_ddel (d : List (κ × α)) (k k' : κ) :
    dget (ddel d k) k' = if k' = k then none else dget d k' := by
  induction d with
  | nil => simp [ddel]
  | cons p d ih =>
    unfold ddel at ih ⊢
    rw [List.filter_cons]
    by_cases h : p.1 = k
    · have hb : (p.1 != k) = false := by simp [bne, h]
      rw [hb]
      simp only [Bool.false_eq_true, if_false, ih]
      by_cases h' : k' = k
      · simp [h']
      · rw [if_neg h', if_neg h', dget_cons, h, if_neg (fun hh => h' hh.symm)]
    · have hb : (p.1 != k) = true := by simp [bne, h]
      rw [hb]
      simp only [if_true]
      rw [dget_cons, ih, dget_cons]
      by_cases h' : k' = k
      · subst h'
        simp [h]
      · simp [h']

theorem ddel_ddel (d : List (κ × α)) (k : κ) : ddel (ddel d k) k = ddel d k := by
  unfold ddel
  rw [List.filter_filter]
  apply List.filter_congr
  intro p _
  by_cases h : p.1 = k <;> simp [bne, h]

end DictLemmas

section MergeLemmas

theorem dget_merge_of_nodup (base extra : PropertyDict) (he : NodupKeys extra) (k : String) :
    dget (merge_styles base extra) k = (dget extra k).or (dget base k) := by
  induction extra generalizing base with
  | nil => simp [merge_styles]
  | cons p extra ih =>
    have he' : NodupKeys extra := (nodupKeys_cons_iff.mp he).2
    have hp : p.1 ∉ dkeys extra := (nodupKeys_cons_iff.mp he).1
    show dget (merge_styles (dinsert base p.1 p.2) extra) k = _
    rw [ih _ he', dget_cons, dget_dinsert]
    by_cases h : k = p.1
    · have hnone : dget extra k = none := by
        rw [h]; exact (dget_eq_none_iff_not_mem_dkeys extra p.1).mpr hp
      rw [hnone, if_pos h, if_pos h.symm]
      simp
    · rw [if_neg h, if_neg (fun hh => h hh.symm)]

theorem merge_styles_nil (base : PropertyDict) : merge_styles base [] = base := rfl

theorem merge_styles_eq_append (extra : PropertyDict) :
    ∀ acc : PropertyDict, NodupKeys extra → (∀ k, k ∈ dkeys extra → k ∉ dkeys acc) →
      merge_styles acc extra = acc ++ extra := by
  induction extra with
  | nil => intro acc _ _; simp [merge_styles]
  | cons p extra ih =>
    intro acc hnd hdisj
    have hmem : p.1 ∉ dkeys acc := hdisj p.1 (by simp)
    have hnd' : NodupKeys extra := (nodupKeys_cons_iff.mp hnd).2
    have hp : p.1 ∉ dkeys extra := (nodupKeys_cons_iff.mp hnd).1
    show merge_styles (dinsert acc p.1 p.2) extra = acc ++ p :: extra
    have step : dinsert acc p.1 p.2 = acc ++ [p] := by
      unfold dinsert
      rw [if_neg (fun hc => hmem ((any_key_eq_mem_dkeys acc p.1).mp hc))]
    rw [step, ih (acc ++ [p]) hnd' ?_]
    · simp
    · intro k hk
      rw [dkeys_append]
      simp only [List.mem_append]
      rintro (hka | hkp)
      · exact hdisj k (by simp [hk]) hka
      · simp only [dkeys_cons, dkeys_nil, List.mem_singleton] at hkp
        exact hp (hkp ▸ hk)

theorem nil_merge_styles_of_nodup (extra : PropertyDict) (he : NodupKeys extra) :
    merge_styles [] extra = extra := by
  simpa using merge_styles_eq_append extra [] he (by simp)

theorem mem_dkeys_merge (base extra : PropertyDict) (k : String) :
    k ∈ dkeys (merge_styles base extra) ↔ k ∈ dkeys base ∨ k ∈ dkeys extra := by
  induction extra generalizing base with
  | nil => simp [merge_styles, dkeys]
  | cons p extra ih =>
    show k ∈ dkeys (merge_styles (dinsert base p.1 p.2) extra) ↔ _
    rw [ih, mem_dkeys_dinsert]
    simp only [dkeys, List.map_cons, List.mem_cons]
    tauto

theorem nodupKeys_merge (base extra : PropertyDict) (hb : NodupKeys base) :
    NodupKeys (merge_styles base extra) := by
  induction extra generalizing base with
  | nil => exact hb
  | cons p extra ih => exact ih _ (nodupKeys_dinsert _ _ hb)

theorem nodupKeys_nil : NodupKeys ([] : PropertyDict) := by simp [NodupKeys, dkeys]

theorem nodupKeys_pydict (l : PropertyDict) : NodupKeys (pydict l) := by
  suffices h : ∀ acc : PropertyDict, NodupKeys acc →
      NodupKeys (l.foldl (fun a p => dinsert a p.1 p.2) acc) from
    h [] nodupKeys_nil
  induction l with
  | nil => intro acc hacc; exact hacc
  | cons p l ih => intro acc hacc; exact ih _ (nodupKeys_dinsert _ _ hacc)

theorem pydict_eq_merge_nil (l : PropertyDict) : pydict l = merge_styles [] l := rfl

theorem pydict_of_nodupKeys {l : PropertyDict} (h : NodupKeys l) : pydict l = l :=
  nil_merge_styles_of_nodup l h

theorem dget_eq_some_iff_mem {κ α : Type} [BEq κ] [LawfulBEq κ] [DecidableEq κ]
    {d : List (κ × α)} (hd : NodupKeys d) {k : κ} {v : α} :
    dget d k = some v ↔ (k, v) ∈ d := by
  induction d with
  | nil => simp
  | cons p d ih =>
    obtain ⟨hp, hd'⟩ := nodupKeys_cons_iff.mp hd
    rw [dget_cons]
    by_cases h : p.1 = k
    · subst h
      simp only [eq_self_iff_true, if_true, List.mem_cons, Option.some_inj]
      constructor
      · rintro rfl
        exact Or.inl rfl
      · rintro (he | hm)
        · exact (congrArg Prod.snd he).symm
        · exact absurd (mem_dkeys.mpr ⟨v, hm⟩) hp
    · simp only [if_neg h, List.mem_cons, ih hd']
      constructor
      · exact Or.inr
      · rintro (he | hm)
        · exact absurd (congrArg Prod.fst he).symm h
        · exact hm

end MergeLemmas

/-! ## The Python string order: transitivity, totality, antisymmetry -/

section OrderLemmas

theorem charEqOfToNat {a b : Char} (h : a.toNat = b.toNat) : a = b :=
  Char.eq_of_val_eq (UInt32.ext h)

theorem lexLt_cons_iff {a b : Char} {as bs : List Char} :
    lexLt (a :: as) (b :: bs) = true ↔
      a.toNat < b.toNat ∨ (a = b ∧ lexLt as bs = true) := by
  simp [lexLt]

theorem lexLt_irrefl : ∀ l : List Char, lexLt l l = false
  | [] => rfl
  | a :: as => by simp [lexLt, lexLt_irrefl as]

theorem lexLt_trans :
    ∀ (x y z : List Char), lexLt x y = true → lexLt y z = true → lexLt x z = true
  | x, y, [], _, hyz => by cases y <;> simp [lexLt] at hyz
  | [], y, _ :: _, _, _ => by simp [lexLt]
  | a :: as, y, c :: cs, hxy, hyz => by
    cases y with
    | nil => simp [lexLt] at hxy
    | cons b bs =>
      rw [lexLt_cons_iff] at hxy hyz ⊢
      rcases hxy with h1 | ⟨rfl, h1⟩
      · rcases hyz with h2 | ⟨rfl, h2⟩
        · exact Or.inl (Nat.lt_trans h1 h2)
        · exact Or.inl h1
      · rcases hyz with h2 | ⟨rfl, h2⟩
        · exact Or.inl h2
        · exact Or.inr ⟨rfl, lexLt_trans as bs cs h1 h2⟩

theorem lexLt_connex :
    ∀ (x y : List Char), lexLt x y = true ∨ lexLt y x = true ∨ x = y
  | [], [] => Or.inr (Or.inr rfl)
  | [], _ :: _ => Or.inl (by simp [lexLt])
  | _ :: _, [] => Or.inr (Or.inl (by simp [lexLt]))
  | a :: as, b :: bs => by
    rcases Nat.lt_trichotomy a.toNat b.toNat with h | h | h
    · exact Or.inl (lexLt_cons_iff.mpr (Or.inl h))
    · have hab : a = b := charEqOfToNat h
      subst hab
      rcases lexLt_connex as bs with h' | h' | h'
      · exact Or.inl (lexLt_cons_iff.mpr (Or.inr ⟨rfl, h'⟩))
      · exact Or.inr (Or.inl (lexLt_cons_iff.mpr (Or.inr ⟨rfl, h'⟩)))
      · exact Or.inr (Or.inr (by rw [h']))
    · exact Or.inr (Or.inl (lexLt_cons_iff.mpr (Or.inl h)))

theorem lexLt_asymm :
    ∀ (x y : List Char), lexLt x y = true → lexLt y x = true → False
  | [], y, h1, h2 => by
    cases y with
    | nil => simp [lexLt] at h1
    | cons b bs => simp [lexLt] at h2
  | _ :: _, [], h1, _ => by simp [lexLt] at h1
  | a :: as, b :: bs, h1, h2 => by
    rw [lexLt_cons_iff] at h1 h2
    rcases h1 with h1 | ⟨rfl, h1⟩ <;> rcases h2 with h2 | ⟨he, h2⟩
    · omega
    · rw [he] at h1; omega
    · omega
    · exact lexLt_asymm as bs h1 h2

theorem strDataInj {a b : String} (h : a.data = b.data) : a = b := by
  cases a; cases b
  exact congrArg String.mk h

theorem strLtB_irrefl (a : String) : strLtB a a = false := lexLt_irrefl a.data

theorem strLtB_trans {a b c : String} (h1 : strLtB a b = true) (h2 : strLtB b c = true) :
    strLtB a c = true := lexLt_trans a.data b.data c.data h1 h2

theorem strLtB_asymm {a b : String} (h1 : strLtB a b = true) (h2 : strLtB b a = true) :
    False := lexLt_asymm a.data b.data h1 h2

theorem strLtB_connex (a b : String) :
    strLtB a b = true ∨ strLtB b a = true ∨ a = b := by
  rcases lexLt_connex a.data b.data with h | h | h
  · exact Or.inl h
  · exact Or.inr (Or.inl h)
  · exact Or.inr (Or.inr (strDataInj h))

theorem strLeB_iff {a b : String} :
    strLeB a b = true ↔ strLtB a b = true ∨ a = b := by
  simp [strLeB]

instance : IsTrans String strLe where
  trans a b c h1 h2 := by
    unfold strLe at h1 h2 ⊢
    rw [strLeB_iff] at h1 h2 ⊢
    rcases h1 with h1 | rfl
    · rcases h2 with h2 | rfl
      · exact Or.inl (strLtB_trans h1 h2)
      · exact Or.inl h1
    · exact h2

instance : IsTotal String strLe where
  total a b := by
    unfold strLe
    rw [strLeB_iff, strLeB_iff]
    rcases strLtB_connex a b with h | h | rfl
    · exact Or.inl (Or.inl h)
    · exact Or.inr (Or.inl h)
    · exact Or.inl (Or.inr rfl)

instance : IsAntisymm String strLe where
  antisymm a b h1 h2 := by
    unfold strLe at h1 h2
    rw [strLeB_iff] at h1 h2
    rcases h1 with h1 | rfl
    · rcases h2 with h2 | rfl
      · exact (strLtB_asymm h1 h2).elim
      · rfl
    · rfl

theorem pairLe_iff {p q : String × String} :
    pairLe p q ↔ strLtB p.1 q.1 = true ∨ (p.1 = q.1 ∧ strLeB p.2 q.2 = true) := by
  unfold pairLe
  simp

instance : IsTrans (String × String) pairLe where
  trans p q r h1 h2 := by
    rw [pairLe_iff] at h1 h2 ⊢
    rcases h1 with h1 | ⟨he1, h1⟩
    · rcases h2 with h2 | ⟨he2, h2⟩
      · exact Or.inl (strLtB_trans h1 h2)
      · exact Or.inl (he2 ▸ h1)
    · rcases h2 with h2 | ⟨he2, h2⟩
      · exact Or.inl (he1 ▸ h2)
      · refine Or.inr ⟨he1.trans he2, ?_⟩
        exact trans_of strLe h1 h2

instance : IsTotal (String × String) pairLe where
    total p q := by
      rw [pairLe_iff, pairLe_iff]
      rcases strLtB_connex p.1 q.1 with h | h | h
      · exact Or.inl (Or.inl h)
      · exact Or.inr (Or.inl h)
      · rcases total_of strLe p.2 q.2 with h2 | h2
        · exact Or.inl (Or.inr ⟨h, h2⟩)
        · exact Or.inr (Or.inr ⟨h.symm, h2⟩)

instance : IsAntisymm (String × String) pairLe where
  antisymm p q h1 h2 := by
    rw [pairLe_iff] at h1 h2
    rcases h1 with h1 | ⟨he1, h1⟩
    · rcases h2 with h2 | ⟨he2, h2⟩
      · exact (strLtB_asymm h1 h2).elim
      · rw [he2] at h1
        rw [strLtB_irrefl] at h1
        exact absurd h1 (by simp)
    · rcases h2 with h2 | ⟨he2, h2⟩
      · rw [he1] at h2
        rw [strLtB_irrefl] at h2
        exact absurd h2 (by simp)
      · have : p.2 = q.2 := antisymm_of strLe h1 h2
        exact Prod.ext he1 this

end OrderLemmas

/-! ## Sorted-items machinery -/

section SortLemmas

theorem nodup_pairs_of_nodupKeys {κ α : Type} {d : List (κ × α)} (h : NodupKeys d) :
    d.Nodup := by
  unfold NodupKeys dkeys at h
  exact List.Nodup.of_map _ h

theorem perm_of_propEq {a b : PropertyDict} (ha : NodupKeys a) (hb : NodupKeys b)
    (h : PropEq a b) : a.Perm b := by
  refine (List.perm_ext_iff_of_nodup (nodup_pairs_of_nodupKeys ha)
    (nodup_pairs_of_nodupKeys hb)).mpr ?_
  intro p
  rw [← dget_eq_some_iff_mem ha, ← dget_eq_some_iff_mem hb, h p.1]

theorem sortPairs_eq_of_propEq {a b : PropertyDict} (ha : NodupKeys a) (hb : NodupKeys b)
    (h : PropEq a b) : sortPairs a = sortPairs b := by
  refine List.eq_of_perm_of_sorted ?_ (List.sorted_insertionSort pairLe a)
    (List.sorted_insertionSort pairLe b)
  exact (List.perm_insertionSort pairLe a).trans
    ((perm_of_propEq ha hb h).trans (List.perm_insertionSort pairLe b).symm)

theorem sortPairs_perm (d : PropertyDict) : (sortPairs d).Perm d :=
  List.perm_insertionSort pairLe d

theorem dget_sortPairs {d : PropertyDict} (hd : NodupKeys d) (k : String) :
    dget (sortPairs d) k = dget d k := by
  have hnd : NodupKeys (sortPairs d) := by
    unfold NodupKeys dkeys
    exact ((sortPairs_perm d).map Prod.fst).nodup_iff.mpr hd
  cases hv : dget d k with
  | none =>
    rw [dget_eq_none_iff_not_mem_dkeys] at hv ⊢
    intro hm
    apply hv
    rw [mem_dkeys] at hm ⊢
    obtain ⟨v, hvm⟩ := hm
    exact ⟨v, (sortPairs_perm d).mem_iff.mp hvm⟩
  | some v =>
    rw [dget_eq_some_iff_mem hnd]
    exact (sortPairs_perm d).mem_iff.mpr ((dget_eq_some_iff_mem hd).mp hv)

theorem nodupKeys_sortPairs {d : PropertyDict} (hd : NodupKeys d) :
    NodupKeys (sortPairs d) := by
  unfold NodupKeys dkeys
  exact ((sortPairs_perm d).map Prod.fst).nodup_iff.mpr hd

end SortLemmas

/-! ## C10: the algebra of merge_styles -/

/-- C10: `merge_styles` is a pure right-biased map union: the result's
lookups are `extra`'s first, then `base`'s; its key set is the union of
both key sets; the empty dict is a left and right identity; and the merge
is associative (extensionally), so multi-stage cascades are independent
of grouping.  (Purity — no mutation of either argument — is inherent in
this embedding: `merge_styles` is a function.) -/
theorem merge_styles_spec (base extra : PropertyDict)
    (hb : NodupKeys base) (he : NodupKeys extra) :
    (∀ k, dget (merge_styles base extra) k = (dget extra k).or (dget base k)) ∧
    (∀ k, k ∈ dkeys (merge_styles base extra) ↔ k ∈ dkeys base ∨ k ∈ dkeys extra) ∧
    merge_styles [] extra = extra ∧
    merge_styles base [] = base ∧
    (∀ c : PropertyDict, NodupKeys c →
      ∀ k, dget (merge_styles (merge_styles base extra) c) k =
        dget (merge_styles base (merge_styles extra c)) k) := by
  refine ⟨fun k => dget_merge_of_nodup base extra he k,
    fun k => mem_dkeys_merge base extra k,
    nil_merge_styles_of_nodup extra he,
    merge_styles_nil base,
    fun c hc k => ?_⟩
  rw [dget_merge_of_nodup _ c hc, dget_merge_of_nodup base extra he,
    dget_merge_of_nodup base _ (nodupKeys_merge extra c he),
    dget_merge_of_nodup extra c hc, Option.or_assoc]

/-- Witness for C10 at concrete dicts. -/
theorem merge_styles_spec_witness :
    dget (merge_styles [("font-weight", "bold")] [("font-weight", "400"), ("color", "red")])
      "font-weight" = some "400" := by
  have h := merge_styles_spec [("font-weight", "bold")] [("font-weight", "400"), ("color", "red")]
    (by decide) (by decide)
  rw [h.1 "font-weight"]
  rfl

/-! ## C1: font-weight normalization on the two paths -/

/-- C1 counterexample: the declaration `font-weight: 500` (numeric, greater
than 400) normalizes to bold on the stylesheet path but produces no entry
on the inline-style/cascade path, so the two paths do not implement the
same rule; an element with inline `style="font-weight:500"` yields no
bold label and no FormattedEntry at all. -/
theorem font_weight_paths_differ_at_500 :
    _normalize_property "font-weight" "500" = some [("font-weight", "bold")] ∧
    normalize_tracked_properties [("font-weight", "500")] = [] ∧
    (apply_styles_to_soup (.elem "p" [("style", "font-weight:500")] [.textNode "x"])
      [] 1 1).2 = [] := by
  refine ⟨?_, ?_, ?_⟩ <;> rfl

/-- C1 (amended): on the stylesheet path `_normalize_property` maps a
font-weight whose cleaned value is numeric and greater than 400, or the
keyword `bold`/`bolder`, to `{font-weight: bold}` and every other value
to no entry; on the inline-style/cascade path
`normalize_tracked_properties` maps a font-weight to bold exactly when
its stripped lower-cased value is one of `bold`, `600`, `700`, `800`,
`900`.  The two paths therefore disagree, e.g. on `500` and `bolder`,
both of which the stylesheet path maps to bold and the cascade path
drops. -/
theorem font_weight_normalization_amended :
    (∀ v : String,
      _normalize_property "font-weight" v =
        some (if (pyIsDigitL (cleanValue v) = true ∧ 400 < pyParseDigits (cleanValue v))
                ∨ (⟨cleanValue v⟩ : String) = "bold" ∨ (⟨cleanValue v⟩ : String) = "bolder"
              then [("font-weight", "bold")] else [])) ∧
    (∀ v : String,
      normalize_tracked_properties [("font-weight", v)] =
        if v ≠ "" ∧ pyLower (pyStrip v) ∈ bold_values
        then [("font-weight", "bold")] else []) ∧
    (_normalize_property "font-weight" "bolder" = some [("font-weight", "bold")] ∧
      normalize_tracked_properties [("font-weight", "bolder")] = []) := by
  refine ⟨fun v => ?_, fun v => ?_, by rfl, by rfl⟩
  · by_cases hd : pyIsDigitL (cleanValue v) = true
    · by_cases hw : 400 < pyParseDigits (cleanValue v)
      · rw [if_pos (Or.inl ⟨hd, hw⟩)]
        unfold _normalize_property
        simp [hd, hw]
      · rw [if_neg ?_]
        · unfold _normalize_property
          simp [hd, hw]
        · rintro ((⟨-, hw'⟩ : _ ∧ _) | hb | hb)
          · exact hw hw'
          · rw [show cleanValue v = ("bold" : String).data from congrArg String.data hb] at hd
            exact absurd hd (by decide)
          · rw [show cleanValue v = ("bolder" : String).data from congrArg String.data hb] at hd
            exact absurd hd (by decide)
    · by_cases hb : (⟨cleanValue v⟩ : String) = "bold" ∨ (⟨cleanValue v⟩ : String) = "bolder"
      · rw [if_pos (Or.inr hb)]
        unfold _normalize_property
        rcases hb with hb | hb <;> simp [hd, hb]
      · rw [if_neg ?_]
        · unfold _normalize_property
          simp [hd, hb]
        · rintro (⟨hd', -⟩ | hb')
          · exact hd hd'
          · exact hb hb'
  · have h1 : dget ([("font-weight", v)] : PropertyDict) "font-weight" = some v := by
      rw [dget_cons]; simp
    have h2 : dget ([("font-weight", v)] : PropertyDict) "font-style" = none := by
      rw [dget_cons]; simp [dget]
    have h3 : dget ([("font-weight", v)] : PropertyDict) "text-decoration" = none := by
      rw [dget_cons]; simp [dget]
    have h4 : dget ([("font-weight", v)] : PropertyDict) "text-align" = none := by
      rw [dget_cons]; simp [dget]
    unfold normalize_tracked_properties ntpTA ntpTD ntpFS ntpFW
    rw [h1, h2, h3, h4]
    by_cases h : v ≠ "" ∧ pyLower (pyStrip v) ∈ bold_values
    · simp only [h, if_true, if_pos h]
      rfl
    · simp only [h, if_false, if_neg h]

/-! ## Collapse lemmas (for C2 and C7) -/

section CollapseLemmas

/-- The canonical form of a group's property dict used as grouping key:
`tuple(sorted(dict(props).items()))`. -/
abbrev canonKey (props : PropertyDict) : PropertyDict := sortPairs (pydict props)

/-- First occurrences of a list's elements, in encounter order, given an
already-seen prefix — the key order of a Python dict built with
`setdefault`. -/
def firstOccAux {β : Type} [DecidableEq β] (seen : List β) : List β → List β
  | [] => []
  | x :: xs => if x ∈ seen then firstOccAux seen xs else x :: firstOccAux (seen ++ [x]) xs

theorem sorted_sortPairs (d : PropertyDict) : List.Sorted pairLe (sortPairs d) :=
  List.sorted_insertionSort pairLe d

theorem sortPairs_of_sorted {d : PropertyDict} (h : List.Sorted pairLe d) :
    sortPairs d = d :=
  List.Sorted.insertionSort_eq h

theorem canonKey_canonical_fixed {k : PropertyDict} (hs : List.Sorted pairLe k)
    (hn : NodupKeys k) : canonKey k = k := by
  unfold canonKey
  rw [pydict_of_nodupKeys hn, sortPairs_of_sorted hs]

theorem nodupKeys_canonKey (props : PropertyDict) : NodupKeys (canonKey props) :=
  nodupKeys_sortPairs (nodupKeys_pydict props)

theorem sorted_canonKey (props : PropertyDict) : List.Sorted pairLe (canonKey props) :=
  sorted_sortPairs (pydict props)

theorem propEq_pydict_iff_canonKey (a b : PropertyDict) :
    PropEq (pydict a) (pydict b) ↔ canonKey a = canonKey b := by
  constructor
  · intro h
    exact sortPairs_eq_of_propEq (nodupKeys_pydict a) (nodupKeys_pydict b) h
  · intro h k
    have h1 : dget (pydict a) k = dget (canonKey a) k :=
      (dget_sortPairs (nodupKeys_pydict a) k).symm
    rw [h1, h]
    exact dget_sortPairs (nodupKeys_pydict b) k

theorem dget_dmodify {κ α : Type} [BEq κ] [LawfulBEq κ] [DecidableEq κ]
    (d : List (κ × α)) (k : κ) (f : α → α) (k' : κ) :
    dget (dmodify d k f) k' = if k' = k then (dget d k).map f else dget d k' := by
  induction d with
  | nil => by_cases h' : k' = k <;> simp [dmodify, h']
  | cons p d ih =>
    unfold dmodify at ih ⊢
    simp only [beq_iff_eq] at ih ⊢
    rw [List.map_cons]
    by_cases h : p.1 = k
    · by_cases h' : k' = k
      · subst h'
        simp [h, dget_cons, ih]
      · have hpk : p.1 ≠ k' := fun hh => h' (hh.symm.trans h)
        simp [h, dget_cons, hpk, h', Ne.symm h', ih]
    · by_cases h' : k' = k
      · subst h'
        simp [h, dget_cons, ih]
      · simp [h, dget_cons, h', ih]

theorem dkeys_dmodify {κ α : Type} [BEq κ] (d : List (κ × α)) (k : κ) (f : α → α) :
    dkeys (dmodify d k f) = dkeys d := by
  unfold dmodify dkeys
  rw [List.map_map]
  apply List.map_congr_left
  intro p _
  by_cases h : (p.1 == k) = true <;> simp [h]

theorem mem_eraseDupsLoop {β : Type} [BEq β] [LawfulBEq β] (x : β) :
    ∀ (as bs : List β), x ∈ List.eraseDups.loop as bs ↔ x ∈ as ∨ x ∈ bs := by
  intro as
  induction as with
  | nil => intro bs; simp [List.eraseDups.loop]
  | cons a as ih =>
    intro bs
    unfold List.eraseDups.loop
    cases he : bs.elem a with
    | true =>
      rw [ih bs]
      have ha : a ∈ bs := by simpa using he
      constructor
      · rintro (h | h)
        · exact Or.inl (List.mem_cons_of_mem a h)
        · exact Or.inr h
      · rintro (h | h)
        · rcases List.mem_cons.mp h with rfl | h
          · exact Or.inr ha
          · exact Or.inl h
        · exact Or.inr h
    | false =>
      rw [ih (a :: bs)]
      constructor
      · rintro (h | h)
        · exact Or.inl (List.mem_cons_of_mem a h)
        · rcases List.mem_cons.mp h with rfl | h
          · exact Or.inl (List.mem_cons_self x as)
          · exact Or.inr h
      · rintro (h | h)
        · rcases List.mem_cons.mp h with rfl | h
          · exact Or.inr (List.mem_cons_self x bs)
          · exact Or.inl h
        · exact Or.inr (List.mem_cons_of_mem a h)

theorem mem_eraseDups {β : Type} [BEq β] [LawfulBEq β] {x : β} {l : List β} :
    x ∈ l.eraseDups ↔ x ∈ l := by
  unfold List.eraseDups
  rw [mem_eraseDupsLoop]
  simp

theorem mem_sortStrings {s : String} {l : List String} :
    s ∈ sortStrings l ↔ s ∈ l :=
  (List.perm_insertionSort strLe l).mem_iff

theorem firstOccAux_cons {β : Type} [DecidableEq β] (seen : List β) (x : β) (xs : List β) :
    firstOccAux seen (x :: xs) =
      if x ∈ seen then firstOccAux seen xs else x :: firstOccAux (seen ++ [x]) xs := rfl

theorem firstOccAux_sub {β : Type} [DecidableEq β] :
    ∀ (xs seen : List β) (x : β), x ∈ firstOccAux seen xs → x ∈ xs := by
  intro xs
  induction xs with
  | nil => intro seen x h; simp [firstOccAux] at h
  | cons y ys ih =>
    intro seen x h
    unfold firstOccAux at h
    by_cases hy : y ∈ seen
    · rw [if_pos hy] at h
      exact List.mem_cons_of_mem y (ih seen x h)
    · rw [if_neg hy] at h
      rcases List.mem_cons.mp h with rfl | h
      · exact List.mem_cons_self x ys
      · exact List.mem_cons_of_mem y (ih (seen ++ [y]) x h)

theorem firstOccAux_nodup {β : Type} [DecidableEq β] :
    ∀ (xs seen : List β), (firstOccAux seen xs).Nodup ∧
      ∀ x ∈ firstOccAux seen xs, x ∉ seen := by
  intro xs
  induction xs with
  | nil => intro seen; simp [firstOccAux]
  | cons y ys ih =>
    intro seen
    unfold firstOccAux
    by_cases hy : y ∈ seen
    · rw [if_pos hy]
      exact ih seen
    · rw [if_neg hy]
      obtain ⟨hnd, hout⟩ := ih (seen ++ [y])
      refine ⟨List.nodup_cons.mpr ⟨?_, hnd⟩, ?_⟩
      · intro hmem
        exact hout y hmem (by simp)
      · intro x hx
        rcases List.mem_cons.mp hx with rfl | hx
        · exact hy
        · intro hxs
          exact hout x hx (by simp [hxs])

/-- The selectors contributed to the bucket of `key` by the groups of
`gs`, in processing order. -/
def selsFor (key : PropertyDict) (gs : List StyleGroup) : List String :=
  (gs.filter (fun g => canonKey g.properties == key)).flatMap (fun g => g.selectors)

theorem dkeys_collapseStep (acc : List (PropertyDict × List String)) (g : StyleGroup) :
    dkeys (collapseStep acc g) =
      if canonKey g.properties ∈ dkeys acc then dkeys acc
      else dkeys acc ++ [canonKey g.properties] := by
  unfold collapseStep
  rw [dkeys_dmodify]
  by_cases h : canonKey g.properties ∈ dkeys acc
  · have hs : (dget acc (canonKey g.properties)).isSome = true := by
      rw [dget_isSome_iff_mem_dkeys]
      exact h
    rw [if_pos hs, if_pos h]
  · have hs : ¬ (dget acc (canonKey g.properties)).isSome = true := by
      rw [dget_isSome_iff_mem_dkeys]
      exact h
    rw [if_neg hs, if_neg h, dkeys_append, dkeys_cons, dkeys_nil]

theorem dget_collapseStep (acc : List (PropertyDict × List String)) (g : StyleGroup)
    (key : PropertyDict) :
    dget (collapseStep acc g) key =
      if key = canonKey g.properties
      then some (((dget acc (canonKey g.properties)).getD []) ++ g.selectors)
      else dget acc key := by
  simp only [collapseStep]
  cases hv : dget acc (canonKey g.properties) with
  | some sels =>
    rw [if_pos (show (some sels).isSome = true from rfl), dget_dmodify]
    by_cases h : key = canonKey g.properties
    · rw [if_pos h, if_pos h, hv]
      rfl
    · rw [if_neg h, if_neg h]
  | none =>
    rw [if_neg (show ¬ (none : Option (List String)).isSome = true from by simp), dget_dmodify]
    by_cases h : key = canonKey g.properties
    · have h1 : dget ([(canonKey g.properties, ([] : List String))]) (canonKey g.properties)
          = some [] := by
        rw [dget_cons]
        simp
      rw [if_pos h, if_pos h, dget_append, hv, h1]
      rfl
    · have hne : ¬ canonKey g.properties = key := fun hh => h hh.symm
      have h1 : dget ([(canonKey g.properties, ([] : List String))]) key = none := by
        rw [dget_cons]
        simp [hne]
      rw [if_neg h, if_neg h, dget_append, h1]
      cases dget acc key <;> rfl

theorem collapseFold_dkeys (gs : List StyleGroup) :
    ∀ acc, dkeys (gs.foldl collapseStep acc) =
      dkeys acc ++ firstOccAux (dkeys acc) (gs.map (fun g => canonKey g.properties)) := by
  induction gs with
  | nil => intro acc; simp [firstOccAux]
  | cons g gs ih =>
    intro acc
    rw [List.foldl_cons, ih, dkeys_collapseStep, List.map_cons, firstOccAux_cons]
    by_cases h : canonKey g.properties ∈ dkeys acc
    · rw [if_pos h, if_pos h]
    · rw [if_neg h, if_neg h, List.append_assoc, List.singleton_append]

theorem collapseFold_dget (gs : List StyleGroup) :
    ∀ acc key, dget (gs.foldl collapseStep acc) key =
      match dget acc key with
      | some sels => some (sels ++ selsFor key gs)
      | none =>
        if key ∈ gs.map (fun g => canonKey g.properties)
        then some (selsFor key gs) else none := by
  induction gs with
  | nil =>
    intro acc key
    cases hv : dget acc key <;> simp [selsFor, hv]
  | cons g gs ih =>
    intro acc key
    rw [List.foldl_cons, ih, dget_collapseStep]
    by_cases h : key = canonKey g.properties
    · have hsels : selsFor key (g :: gs) = g.selectors ++ selsFor key gs := by
        unfold selsFor
        rw [List.filter_cons, if_pos (by simp [h]), List.flatMap_cons]
      have hmem : key ∈ (g :: gs).map (fun g2 => canonKey g2.properties) :=
        List.mem_map.mpr ⟨g, List.mem_cons_self g gs, h.symm⟩
      rw [if_pos h]
      cases hv : dget acc key with
      | some sels =>
        have hv' : dget acc (canonKey g.properties) = some sels := by rw [← h]; exact hv
        simp [hv, hv', hsels]
      | none =>
        have hv' : dget acc (canonKey g.properties) = none := by rw [← h]; exact hv
        simp only [hv, hv', hsels, hmem, if_true, if_pos hmem]
        simp
    · have hne : ¬ canonKey g.properties = key := fun hh => h hh.symm
      have hsels : selsFor key (g :: gs) = selsFor key gs := by
        unfold selsFor
        rw [List.filter_cons, if_neg (by simp [hne])]
      rw [if_neg h, hsels]
      cases hv : dget acc key with
      | some sels => rfl
      | none =>
        have hiff : (key ∈ (g :: gs).map (fun g2 => canonKey g2.properties)) ↔
            (key ∈ gs.map (fun g2 => canonKey g2.properties)) := by
          rw [List.map_cons, List.mem_cons]
          constructor
          · rintro (hh | hh)
            · exact absurd hh h
            · exact hh
          · exact Or.inr
        by_cases hm : key ∈ gs.map (fun g2 => canonKey g2.properties)
        · rw [if_pos hm, if_pos (hiff.mpr hm)]
        · rw [if_neg hm, if_neg (fun hh => hm (hiff.mp hh))]

theorem collapsed_key_canonical (gs : List StyleGroup) {key : PropertyDict}
    (h : key ∈ dkeys (gs.foldl collapseStep [])) :
    List.Sorted pairLe key ∧ NodupKeys key := by
  rw [collapseFold_dkeys gs [], dkeys_nil, List.nil_append] at h
  have hmem : key ∈ gs.map (fun g => canonKey g.properties) := firstOccAux_sub _ _ _ h
  obtain ⟨g, _, rfl⟩ := List.mem_map.mp hmem
  exact ⟨sorted_canonKey g.properties, nodupKeys_canonKey g.properties⟩

theorem nodupKeys_collapseFold (gs : List StyleGroup) :
    NodupKeys (gs.foldl collapseStep []) := by
  show (dkeys (gs.foldl collapseStep [])).Nodup
  rw [collapseFold_dkeys gs [], dkeys_nil, List.nil_append]
  exact (firstOccAux_nodup _ _).1

end CollapseLemmas

/-! ## C2: output order of the collapse operation -/

/-- C2 counterexample: collapsing `[{font-weight: bold} ↦ {a},
{font-style: italic} ↦ {b}]` returns the groups in input encounter order
— `font-weight` first — although the sorted ascending order of the
property tuples would put `{font-style: italic}` first (`"font-style" <
"font-weight"`); the collapsed list is not sorted by the property
tuple. -/
theorem collapse_output_not_sorted :
    (collapse_style_groups
        [⟨[("font-weight", "bold")], ["a"]⟩, ⟨[("font-style", "italic")], ["b"]⟩]).map
      (fun g => canonKey g.properties) =
      [[("font-weight", "bold")], [("font-style", "italic")]] ∧
    pkeyLtB [("font-style", "italic")] [("font-weight", "bold")] = true ∧
    ¬ ((collapse_style_groups
        [⟨[("font-weight", "bold")], ["a"]⟩, ⟨[("font-style", "italic")], ["b"]⟩]).map
      (fun g => canonKey g.properties)).Sorted
        (fun a b => (pkeyLtB a b || a == b) = true) := by
  refine ⟨by rfl, by rfl, by decide⟩

/-- C2 (amended): the collapse operation returns its groups in
first-encounter order of their canonical property tuple (the insertion
order of the internal Python dict), not sorted ascending by that tuple
like the parser's group-list output. -/
theorem collapse_order_amended (gs : List StyleGroup) :
    (collapse_style_groups gs).map (fun g => canonKey g.properties) =
      firstOccAux [] (gs.map (fun g => canonKey g.properties)) := by
  unfold collapse_style_groups
  rw [List.map_map]
  have hmap : ((gs.foldl collapseStep []).map
      (fun e => canonKey (pydict e.1))) = (gs.foldl collapseStep []).map (fun e => e.1) := by
    apply List.map_congr_left
    intro e he
    obtain ⟨hs, hn⟩ := collapsed_key_canonical gs
      (mem_dkeys.mpr ⟨e.2, by simpa using he⟩)
    unfold canonKey
    rw [pydict_of_nodupKeys hn, pydict_of_nodupKeys hn, sortPairs_of_sorted hs]
  rw [show ((fun g : StyleGroup => canonKey g.properties) ∘
      (fun entry : PropertyDict × List String =>
        ({ properties := pydict entry.1,
           selectors := sortStrings entry.2.eraseDups } : StyleGroup))) =
      (fun e : PropertyDict × List String => canonKey (pydict e.1)) from rfl,
    hmap]
  have := collapseFold_dkeys gs []
  rw [dkeys_nil, List.nil_append] at this
  exact this

/-! ## C7: dedup invariant and selector union of the collapse -/

/-- C7: no two groups of the collapsed output have structurally equal
property dicts (Python `==`, i.e. extensional equality), and each output
group's selector set is exactly the union of the selector sets of the
input groups sharing that property dict. -/
theorem collapse_dedup_and_union (gs : List StyleGroup) :
    ((collapse_style_groups gs).Pairwise
      (fun g1 g2 => ¬ PropEq g1.properties g2.properties)) ∧
    (∀ g ∈ collapse_style_groups gs, ∀ s,
      s ∈ g.selectors ↔
        ∃ gi ∈ gs, PropEq (pydict gi.properties) (pydict g.properties) ∧
          s ∈ gi.selectors) := by
  constructor
  · unfold collapse_style_groups
    rw [List.pairwise_map]
    have hnd : (List.map Prod.fst (gs.foldl collapseStep [])).Nodup :=
      nodupKeys_collapseFold gs
    have hpw := List.pairwise_map.mp hnd
    refine hpw.imp_of_mem ?_
    intro e1 e2 h1 h2 hne hpe
    apply hne
    have hc := (propEq_pydict_iff_canonKey e1.1 e2.1).mp hpe
    obtain ⟨hs1, hn1⟩ := collapsed_key_canonical gs (mem_dkeys.mpr ⟨e1.2, by simpa using h1⟩)
    obtain ⟨hs2, hn2⟩ := collapsed_key_canonical gs (mem_dkeys.mpr ⟨e2.2, by simpa using h2⟩)
    rw [canonKey_canonical_fixed hs1 hn1, canonKey_canonical_fixed hs2 hn2] at hc
    exact hc
  · intro g hg s
    unfold collapse_style_groups at hg
    obtain ⟨e, he, rfl⟩ := List.mem_map.mp hg
    show s ∈ sortStrings e.2.eraseDups ↔ _
    rw [mem_sortStrings, mem_eraseDups]
    have hkey : e.1 ∈ dkeys (gs.foldl collapseStep []) :=
      mem_dkeys.mpr ⟨e.2, by simpa using he⟩
    obtain ⟨hs1, hn1⟩ := collapsed_key_canonical gs hkey
    have hcan : canonKey (pydict e.1) = e.1 := by
      unfold canonKey
      rw [pydict_of_nodupKeys hn1, pydict_of_nodupKeys hn1, sortPairs_of_sorted hs1]
    have hdget : dget (gs.foldl collapseStep []) e.1 = some e.2 :=
      (dget_eq_some_iff_mem (nodupKeys_collapseFold gs)).mpr (by simpa using he)
    rw [collapseFold_dget gs [] e.1] at hdget
    simp only [dget_nil] at hdget
    by_cases hm : e.1 ∈ gs.map (fun g => canonKey g.properties)
    · rw [if_pos hm] at hdget
      have he2 : e.2 = selsFor e.1 gs := (Option.some_inj.mp hdget).symm
      rw [he2]
      unfold selsFor
      rw [List.mem_flatMap]
      have hpp : pydict (pydict e.1) = pydict e.1 := pydict_of_nodupKeys (nodupKeys_pydict e.1)
      have hfix : canonKey e.1 = e.1 := canonKey_canonical_fixed hs1 hn1
      constructor
      · rintro ⟨gi, hgi, hsgi⟩
        have hf := List.mem_filter.mp hgi
        refine ⟨gi, hf.1, ?_, hsgi⟩
        have hck : canonKey gi.properties = e.1 := by simpa using hf.2
        show PropEq (pydict gi.properties) (pydict (pydict e.1))
        rw [hpp, propEq_pydict_iff_canonKey, hfix]
        exact hck
      · rintro ⟨gi, hgi, hpe, hsgi⟩
        refine ⟨gi, List.mem_filter.mpr ⟨hgi, ?_⟩, hsgi⟩
        have hpe2 : PropEq (pydict gi.properties) (pydict (pydict e.1)) := hpe
        rw [hpp, propEq_pydict_iff_canonKey, hfix] at hpe2
        simpa using hpe2
    · rw [if_neg hm] at hdget
      exact absurd hdget (by simp)

/-- Witness for C7 at a concrete input: two groups with identical
property dicts collapse into one whose selector list is the union. -/
theorem collapse_dedup_and_union_witness :
    "c" ∈ (⟨[("font-weight", "bold")], ["a", "b", "c"]⟩ : StyleGroup).selectors ↔
      ∃ gi ∈ ([⟨[("font-weight", "bold")], ["b", "a"]⟩,
               ⟨[("font-weight", "bold")], ["a", "c"]⟩] : List StyleGroup),
        PropEq (pydict gi.properties)
          (pydict (⟨[("font-weight", "bold")], ["a", "b", "c"]⟩ : StyleGroup).properties) ∧
        "c" ∈ gi.selectors :=
  (collapse_dedup_and_union
      [⟨[("font-weight", "bold")], ["b", "a"]⟩, ⟨[("font-weight", "bold")], ["a", "c"]⟩]).2
    ⟨[("font-weight", "bold")], ["a", "b", "c"]⟩ (by decide) "c"

/-! ## C3: the property normalizer is not total -/

/-- C3: the normalizer crashes (Python `IndexError`, modelled as `none`)
on a `text-align` value that is empty or whitespace-only after the
`!important` annotation is stripped — `cleaned_value.split()[0]` on an
empty token list — while non-blank values produce the first
whitespace-delimited token, lower-cased. -/
theorem normalize_property_text_align_crash :
    _normalize_property "text-align" "" = none ∧
    _normalize_property "text-align" "   " = none ∧
    _normalize_property "text-align" "  !important" = none ∧
    _normalize_property "text-align" " CENTER  right" = some [("text-align", "center")] := by
  refine ⟨?_, ?_, ?_, ?_⟩ <;> rfl

/-! ## C9: failed sources are skipped, the rest still processed -/

/-- C9: parsing an ordered list of CSS sources in which some sources fail
to parse produces exactly the SelectorStyleMap and group list computed
from the successfully parsed sources alone, in their original encounter
order (blank inline blocks, which are skipped before parsing, likewise
do not contribute). -/
theorem parse_css_sources_skips_failed (cssFiles : List (Option Sheet))
    (inlineCss : List (String × Option Sheet)) :
    parse_css_sources cssFiles inlineCss =
      parse_css_sources ((cssFiles.filterMap id).map some)
        (inlineCss.filter (fun b => !(pyStrip b.1).isEmpty && b.2.isSome)) := by
  have hfiles : ∀ (files : List (Option Sheet)) (ost : Option (SelectorStyleMap × GroupedStyles)),
      files.foldl fileStep ost = ((files.filterMap id).map some).foldl fileStep ost := by
    intro files
    induction files with
    | nil => intro ost; rfl
    | cons f fs ih =>
      intro ost
      cases f with
      | none =>
        rw [List.foldl_cons, show List.filterMap id (none :: fs) = List.filterMap id fs by
          rw [List.filterMap_cons]; rfl]
        exact ih ost
      | some s =>
        rw [List.foldl_cons, show List.filterMap id (some s :: fs) = s :: List.filterMap id fs by
          rw [List.filterMap_cons]; rfl, List.map_cons, List.foldl_cons]
        exact ih _
  have hinline : ∀ (blocks : List (String × Option Sheet))
      (ost : Option (SelectorStyleMap × GroupedStyles)),
      blocks.foldl inlineStep ost =
        (blocks.filter (fun b => !(pyStrip b.1).isEmpty && b.2.isSome)).foldl inlineStep ost := by
    intro blocks
    induction blocks with
    | nil => intro ost; rfl
    | cons b bs ih =>
      intro ost
      rw [List.foldl_cons, List.filter_cons]
      by_cases hblank : (pyStrip b.1).isEmpty = true
      · have hstep : inlineStep ost b = ost := by
          unfold inlineStep
          rw [if_pos hblank]
        have hcond : (!(pyStrip b.1).isEmpty && b.2.isSome) = false := by
          rw [hblank]
          rfl
        rw [hstep, hcond]
        simp only [Bool.false_eq_true, if_false]
        exact ih ost
      · cases hb2 : b.2 with
        | none =>
          have hstep : inlineStep ost b = ost := by
            unfold inlineStep
            rw [if_neg hblank, hb2]
          have hcond : (!(pyStrip b.1).isEmpty && (none : Option Sheet).isSome) = false := by
            simp
          rw [hstep, hcond]
          simp only [Bool.false_eq_true, if_false]
          exact ih ost
        | some s =>
          have hcond : (!(pyStrip b.1).isEmpty && (some s : Option Sheet).isSome) = true := by
            simp [hblank]
          rw [hcond]
          simp only [if_true]
          rw [List.foldl_cons]
          exact ih _
  unfold parse_css_sources
  dsimp only
  rw [hfiles, hinline]

/-! ## Split/join lemmas -/

section SplitJoin

theorem pySplitPred_ne_nil (p : Char → Bool) : ∀ l : List Char, pySplitPred p l ≠ []
  | [] => by simp [pySplitPred]
  | c :: rest => by
    unfold pySplitPred
    by_cases h : p c = true
    · simp [h]
    · simp only [h, Bool.false_eq_true, if_false]
      cases hs : pySplitPred p rest <;> simp

theorem pySplitPred_no_sep (p : Char → Bool) :
    ∀ piece : List Char, (∀ c ∈ piece, p c = false) → pySplitPred p piece = [piece]
  | [], _ => rfl
  | c :: rest, hc => by
    unfold pySplitPred
    rw [hc c (by simp)]
    simp only [Bool.false_eq_true, if_false]
    rw [pySplitPred_no_sep p rest (fun c2 hc2 => hc c2 (by simp [hc2]))]

theorem pySplitPred_cons (p : Char → Bool) (c : Char) (rest : List Char) :
    pySplitPred p (c :: rest) =
      if p c = true then [] :: pySplitPred p rest
      else
        match pySplitPred p rest with
        | [] => [[c]]
        | piece :: pieces => (c :: piece) :: pieces := rfl

theorem pySplitPred_append_sep (p : Char → Bool) (csep : Char) (hsep : p csep = true) :
    ∀ (piece l : List Char), (∀ c ∈ piece, p c = false) →
      pySplitPred p (piece ++ csep :: l) = piece :: pySplitPred p l
  | [], l, _ => by
    rw [List.nil_append, pySplitPred_cons, if_pos hsep]
  | c :: rest, l, hc => by
    rw [List.cons_append, pySplitPred_cons, if_neg (by simp [hc c (by simp)]),
      pySplitPred_append_sep p csep hsep rest l (fun c2 hc2 => hc c2 (by simp [hc2]))]

theorem pySplitPred_interL (p : Char → Bool) (csep : Char) (hsep : p csep = true) :
    ∀ pieces : List (List Char), pieces ≠ [] →
      (∀ piece ∈ pieces, ∀ c ∈ piece, p c = false) →
      pySplitPred p (interL csep pieces) = pieces
  | [], hne, _ => absurd rfl hne
  | [piece], _, hc => by
    unfold interL
    exact pySplitPred_no_sep p piece (hc piece (by simp))
  | piece :: piece2 :: pieces, _, hc => by
    show pySplitPred p (piece ++ csep :: interL csep (piece2 :: pieces)) = _
    rw [pySplitPred_append_sep p csep hsep piece _ (hc piece (by simp)),
      pySplitPred_interL p csep hsep (piece2 :: pieces) (by simp)
        (fun q hq c hcq => hc q (by simp [hq]) c hcq)]

theorem pySplitPred_pieces_sep_free (p : Char → Bool) :
    ∀ l : List Char, ∀ piece ∈ pySplitPred p l, ∀ c ∈ piece, p c = false
  | [], piece, hp, c, hc => by
    simp only [pySplitPred, List.mem_singleton] at hp
    subst hp
    simp at hc
  | d :: rest, piece, hp, c, hc => by
    unfold pySplitPred at hp
    by_cases h : p d = true
    · rw [if_pos h] at hp
      rcases List.mem_cons.mp hp with rfl | hp
      · simp at hc
      · exact pySplitPred_pieces_sep_free p rest piece hp c hc
    · rw [if_neg h] at hp
      cases hs : pySplitPred p rest with
      | nil => exact absurd hs (pySplitPred_ne_nil p rest)
      | cons piece0 pieces0 =>
        rw [hs] at hp
        rcases List.mem_cons.mp hp with rfl | hp
        · rcases List.mem_cons.mp hc with rfl | hc
          · simpa using h
          · exact pySplitPred_pieces_sep_free p rest piece0 (by rw [hs]; simp) c hc
        · exact pySplitPred_pieces_sep_free p rest piece (by rw [hs]; simp [hp]) c hc

theorem pySplitWsL_pieces (l : List Char) :
    ∀ piece ∈ pySplitWsL l, piece ≠ [] ∧ ∀ c ∈ piece, pyIsSpace c = false := by
  intro piece hp
  unfold pySplitWsL at hp
  have hf := List.mem_filter.mp hp
  refine ⟨by simpa using hf.2, ?_⟩
  exact pySplitPred_pieces_sep_free pyIsSpace l piece hf.1

theorem pySplitWsL_interL (pieces : List (List Char))
    (h : ∀ piece ∈ pieces, piece ≠ [] ∧ ∀ c ∈ piece, pyIsSpace c = false) :
    pySplitWsL (interL ' ' pieces) = pieces := by
  cases hp : pieces with
  | nil =>
    unfold pySplitWsL interL
    rfl
  | cons piece0 pieces0 =>
    unfold pySplitWsL
    rw [← hp, pySplitPred_interL pyIsSpace ' ' (by decide) pieces (by simp [hp])
      (fun q hq c hcq => (h q hq).2 c hcq)]
    rw [List.filter_eq_self]
    intro piece hmem
    simpa using (h piece hmem).1

theorem normWs_idem (s : String) : normWs (normWs s) = normWs s := by
  show (⟨interL ' ' (pySplitWsL (interL ' ' (pySplitWsL s.data)))⟩ : String) = _
  rw [pySplitWsL_interL (pySplitWsL s.data) (pySplitWsL_pieces s.data)]
  rfl

end SplitJoin

/-! ## C8: empty text nodes are skipped -/

mutual

/-- Every entry collected below a node comes from `entryForText` at some
ancestor chain and raw text. -/
theorem mem_collectEntriesNode (selmap : SelectorStyleMap) (book chapter : Nat) :
    ∀ (n : Node) (anc : List (String × List (String × String))) (e : FormattedEntry),
      e ∈ collectEntriesNode selmap book chapter anc n →
      ∃ anc2 raw, entryForText selmap book chapter anc2 raw = some e
  | .textNode s, anc, e, he => by
    simp only [collectEntriesNode] at he
    cases hentry : entryForText selmap book chapter anc s with
    | none =>
      rw [hentry] at he
      cases he
    | some e2 =>
      rw [hentry] at he
      simp only [Option.toList_some, List.mem_singleton] at he
      subst he
      exact ⟨anc, s, hentry⟩
  | .elem name attrs children, anc, e, he => by
    simp only [collectEntriesNode] at he
    exact mem_collectEntriesList selmap book chapter children _ e he

/-- List version of `mem_collectEntriesNode`. -/
theorem mem_collectEntriesList (selmap : SelectorStyleMap) (book chapter : Nat) :
    ∀ (ns : List Node) (anc : List (String × List (String × String))) (e : FormattedEntry),
      e ∈ collectEntriesList selmap book chapter anc ns →
      ∃ anc2 raw, entryForText selmap book chapter anc2 raw = some e
  | [], _, e, he => by cases he
  | n :: ns, anc, e, he => by
    simp only [collectEntriesList] at he
    rcases List.mem_append.mp he with h | h
    · exact mem_collectEntriesNode selmap book chapter n anc e h
    · exact mem_collectEntriesList selmap book chapter ns anc e h

end

/-- C8: a text node whose whitespace-normalized text is empty produces no
FormattedEntry, whatever the ancestor chain and selector map; every entry
that is produced carries the whitespace-normalized, non-empty text; and
consequently every entry collected from a whole document has non-empty,
already-normalized text. -/
theorem empty_text_skip (selmap : SelectorStyleMap) (book chapter : Nat) :
    (∀ (ancestors : List (String × List (String × String))) (raw : String),
      normWs raw = "" → entryForText selmap book chapter ancestors raw = none) ∧
    (∀ (ancestors : List (String × List (String × String))) (raw : String)
      (e : FormattedEntry), entryForText selmap book chapter ancestors raw = some e →
      e.text = normWs raw ∧ e.text ≠ "") ∧
    (∀ (doc : Node) (e : FormattedEntry),
      e ∈ collectEntriesNode selmap book chapter [] doc →
      e.text ≠ "" ∧ normWs e.text = e.text) := by
  have h1 : ∀ (ancestors : List (String × List (String × String))) (raw : String),
      normWs raw = "" → entryForText selmap book chapter ancestors raw = none := by
    intro anc raw h
    unfold entryForText
    rw [h]
    rfl
  have h2 : ∀ (ancestors : List (String × List (String × String))) (raw : String)
      (e : FormattedEntry), entryForText selmap book chapter ancestors raw = some e →
      e.text = normWs raw ∧ e.text ≠ "" := by
    intro anc raw e h
    simp only [entryForText] at h
    by_cases hempty : (normWs raw).isEmpty = true
    · rw [if_pos hempty] at h
      cases h
    · rw [if_neg hempty] at h
      have hne : normWs raw ≠ "" := fun hh => hempty ((String.isEmpty_iff _).mpr hh)
      split at h
      · cases h
      · split at h
        · cases h
        · have he := Option.some_inj.mp h
          rw [← he]
          exact ⟨rfl, hne⟩
  refine ⟨h1, h2, ?_⟩
  intro doc e he
  obtain ⟨anc2, raw, hraw⟩ := mem_collectEntriesNode selmap book chapter doc [] e he
  obtain ⟨het, hne⟩ := h2 anc2 raw e hraw
  refine ⟨hne, ?_⟩
  rw [het]
  exact normWs_idem raw

/-- Witness for C8: a whitespace-only text node under a styled paragraph
produces no entry. -/
theorem empty_text_skip_witness :
    entryForText [(".b", [("font-weight", "bold")])] 1 1
      [("p", [("class", "b")])] " \t  " = none :=
  (empty_text_skip [(".b", [("font-weight", "bold")])] 1 1).1
    [("p", [("class", "b")])] " \t  " (by rfl)

/-! ## Character-level lemmas for lower-casing and stripping -/

section CharLemmas

theorem mkChar_toNat (n : Nat) (h : n < 55296) : (mkChar n h).toNat = n := rfl

theorem pyLowerChar_toNat (c : Char) :
    (pyLowerChar c).toNat =
      if 65 ≤ c.toNat ∧ c.toNat ≤ 90 then c.toNat + 32 else c.toNat := by
  unfold pyLowerChar
  by_cases h : 65 ≤ c.toNat ∧ c.toNat ≤ 90
  · rw [dif_pos h, if_pos h, mkChar_toNat]
  · rw [dif_neg h, if_neg h]

theorem pyLowerChar_idem (c : Char) : pyLowerChar (pyLowerChar c) = pyLowerChar c := by
  apply charEqOfToNat
  rw [pyLowerChar_toNat, pyLowerChar_toNat c]
  by_cases h : 65 ≤ c.toNat ∧ c.toNat ≤ 90
  · rw [if_pos h, if_neg (by omega)]
  · rw [if_neg h, if_neg h]

theorem pyIsSpace_iff (d : Char) :
    pyIsSpace d = true ↔ (d.toNat = 32 ∨ d.toNat = 9 ∨ d.toNat = 10 ∨
      d.toNat = 11 ∨ d.toNat = 12 ∨ d.toNat = 13) := by
  simp only [pyIsSpace, Bool.or_eq_true, decide_eq_true_eq]
  tauto

theorem pyLowerChar_eq_self {c : Char} (h : ¬ (65 ≤ c.toNat ∧ c.toNat ≤ 90)) :
    pyLowerChar c = c := by
  unfold pyLowerChar
  rw [dif_neg h]

theorem pyIsSpace_pyLowerChar (c : Char) : pyIsSpace (pyLowerChar c) = pyIsSpace c := by
  by_cases hr : 65 ≤ c.toNat ∧ c.toNat ≤ 90
  · have hf1 : pyIsSpace c = false := by
      rw [← Bool.not_eq_true, pyIsSpace_iff]
      omega
    have hf2 : pyIsSpace (pyLowerChar c) = false := by
      rw [← Bool.not_eq_true, pyIsSpace_iff, pyLowerChar_toNat, if_pos hr]
      omega
    rw [hf1, hf2]
  · rw [pyLowerChar_eq_self hr]

theorem pyLowerChar_ne_of_ne {c d : Char} (hd : d.toNat < 65) (h : c ≠ d) :
    pyLowerChar c ≠ d := by
  intro he
  apply h
  apply charEqOfToNat
  have := congrArg Char.toNat he
  rw [pyLowerChar_toNat] at this
  by_cases hr : 65 ≤ c.toNat ∧ c.toNat ≤ 90
  · rw [if_pos hr] at this
    omega
  · rw [if_neg hr] at this
    exact this ▸ rfl

end CharLemmas

/-! ## Strip lemmas -/

section StripLemmas

theorem dropWhile_all_not {p : Char → Bool} :
    ∀ {l : List Char}, (∀ c ∈ l, p c = false) → l.dropWhile p = l
  | [], _ => rfl
  | c :: t, h => by
    rw [List.dropWhile_cons, if_neg (by simp [h c (by simp)])]

theorem dropWhile_idem (p : Char → Bool) (l : List Char) :
    (l.dropWhile p).dropWhile p = l.dropWhile p := by
  induction l with
  | nil => rfl
  | cons c t ih =>
    rw [List.dropWhile_cons]
    by_cases h : p c = true
    · rw [if_pos h]
      exact ih
    · rw [if_neg h, List.dropWhile_cons, if_neg h]

theorem dropWhile_is_suffix (p : Char → Bool) :
    ∀ l : List Char, ∃ u, u ++ l.dropWhile p = l
  | [] => ⟨[], rfl⟩
  | c :: t => by
    rw [List.dropWhile_cons]
    by_cases h : p c = true
    · rw [if_pos h]
      obtain ⟨u, hu⟩ := dropWhile_is_suffix p t
      exact ⟨c :: u, by rw [List.cons_append, hu]⟩
    · rw [if_neg h]
      exact ⟨[], rfl⟩

theorem dropWhile_of_dropWhile_eq_prefix {p : Char → Bool} {x y : List Char}
    (hx : x.dropWhile p = x) (hpre : ∃ u, y ++ u = x) : y.dropWhile p = y := by
  obtain ⟨u, hu⟩ := hpre
  cases y with
  | nil => rfl
  | cons c t =>
    have hcx : x = c :: (t ++ u) := by rw [← hu]; rfl
    have hpc : p c = false := by
      by_contra hpc
      have hpc' : p c = true := by
        cases hp2 : p c
        · exact absurd hp2 hpc
        · rfl
      rw [hcx, List.dropWhile_cons, if_pos hpc'] at hx
      have := congrArg List.length hx
      simp only [List.length_cons] at this
      have hle := (List.dropWhile_sublist (l := t ++ u) (p := p)).length_le
      omega
    rw [List.dropWhile_cons, if_neg (by simp [hpc])]

theorem pyStripL_dropWhile (l : List Char) :
    (pyStripL l).dropWhile pyIsSpace = pyStripL l := by
  unfold pyStripL
  apply dropWhile_of_dropWhile_eq_prefix (dropWhile_idem pyIsSpace l)
  obtain ⟨u, hu⟩ := dropWhile_is_suffix pyIsSpace (l.dropWhile pyIsSpace).reverse
  refine ⟨u.reverse, ?_⟩
  have := congrArg List.reverse hu
  rw [List.reverse_append, List.reverse_reverse] at this
  exact this

theorem pyStripL_idem (l : List Char) : pyStripL (pyStripL l) = pyStripL l := by
  show (((pyStripL l).dropWhile pyIsSpace).reverse.dropWhile pyIsSpace).reverse = pyStripL l
  rw [pyStripL_dropWhile]
  show ((((l.dropWhile pyIsSpace).reverse.dropWhile pyIsSpace).reverse).reverse.dropWhile
    pyIsSpace).reverse = _
  rw [List.reverse_reverse, dropWhile_idem]
  rfl

theorem pyStripL_all_not_space {l : List Char} (h : ∀ c ∈ l, pyIsSpace c = false) :
    pyStripL l = l := by
  unfold pyStripL
  rw [dropWhile_all_not h, dropWhile_all_not (fun c hc => h c (List.mem_reverse.mp hc)),
    List.reverse_reverse]

theorem mem_of_mem_pyStripL {c : Char} {l : List Char} (h : c ∈ pyStripL l) : c ∈ l := by
  unfold pyStripL at h
  rw [List.mem_reverse] at h
  have h2 := (List.dropWhile_sublist _).mem h
  rw [List.mem_reverse] at h2
  exact (List.dropWhile_sublist _).mem h2

theorem mem_dropWhile_of_not {p : Char → Bool} {c : Char} :
    ∀ {l : List Char}, c ∈ l → p c = false → c ∈ l.dropWhile p
  | d :: t, hm, hp => by
    rw [List.dropWhile_cons]
    by_cases h : p d = true
    · rw [if_pos h]
      rcases List.mem_cons.mp hm with rfl | hm2
      · rw [hp] at h
        cases h
      · exact mem_dropWhile_of_not hm2 hp
    · rw [if_neg h]
      exact hm

theorem mem_pyStripL_of_not {c : Char} {l : List Char} (hm : c ∈ l)
    (hp : pyIsSpace c = false) : c ∈ pyStripL l := by
  unfold pyStripL
  rw [List.mem_reverse]
  apply mem_dropWhile_of_not _ hp
  rw [List.mem_reverse]
  exact mem_dropWhile_of_not hm hp

theorem pyStripL_ne_nil_of_mem {c : Char} {l : List Char} (hm : c ∈ l)
    (hp : pyIsSpace c = false) : pyStripL l ≠ [] := by
  intro he
  have hmem := mem_pyStripL_of_not hm hp
  rw [he] at hmem
  cases hmem

theorem pyStripL_map_lower (l : List Char) :
    pyStripL (pyLowerL l) = pyLowerL (pyStripL l) := by
  have hcong : ∀ m : List Char,
      m.dropWhile (pyIsSpace ∘ pyLowerChar) = m.dropWhile pyIsSpace := by
    intro m
    induction m with
    | nil => rfl
    | cons d t ih =>
      rw [List.dropWhile_cons, List.dropWhile_cons]
      have hd : (pyIsSpace ∘ pyLowerChar) d = pyIsSpace d := pyIsSpace_pyLowerChar d
      rw [hd]
      by_cases h : pyIsSpace d = true
      · rw [if_pos h, if_pos h, ih]
      · rw [if_neg h, if_neg h]
  unfold pyStripL pyLowerL
  rw [List.dropWhile_map, ← List.map_reverse, List.dropWhile_map, ← List.map_reverse, hcong, hcong]

theorem pyLowerL_idem (l : List Char) : pyLowerL (pyLowerL l) = pyLowerL l := by
  unfold pyLowerL
  rw [List.map_map]
  apply List.map_congr_left
  intro c _
  exact pyLowerChar_idem c

end StripLemmas

/-! ## Dict and string helpers for the emitter idempotence proof -/

section EmitterHelpers

theorem isEmpty_false_of_ne_nil {α : Type} {l : List α} (h : l ≠ []) :
    l.isEmpty = false := by
  cases l with
  | nil => exact absurd rfl h
  | cons a as => rfl

theorem ne_nil_of_isEmpty_false {α : Type} {l : List α} (h : l.isEmpty = false) :
    l ≠ [] := by
  cases l with
  | nil => cases h
  | cons a as => simp

theorem str_isEmpty_false {s : String} (h : s ≠ "") : s.isEmpty = false := by
  rw [Bool.eq_false_iff]
  intro hh
  exact h ((String.isEmpty_iff s).mp hh)

theorem str_ne_of_isEmpty_false {s : String} (h : s.isEmpty = false) : s ≠ "" := by
  intro hh
  rw [hh] at h
  cases h

theorem str_mk_data (s : String) : (⟨s.data⟩ : String) = s := strDataInj rfl

theorem dget_mem {κ α : Type} [BEq κ] [LawfulBEq κ] {d : List (κ × α)} {k : κ} {v : α}
    (h : dget d k = some v) : (k, v) ∈ d := by
  unfold dget at h
  cases hf : d.find? (fun p => p.1 == k) with
  | none => rw [hf] at h; cases h
  | some p =>
    rw [hf] at h
    have hp := List.find?_some hf
    have hmem := List.mem_of_find?_eq_some hf
    have h2 : p.2 = v := by simpa using h
    simp only [beq_iff_eq] at hp
    obtain ⟨p1, p2⟩ := p
    cases hp
    cases h2
    exact hmem

theorem mem_dinsert {κ α : Type} [BEq κ] [LawfulBEq κ] {p : κ × α}
    {d : List (κ × α)} {k : κ} {v : α} (h : p ∈ dinsert d k v) :
    p ∈ d ∨ p = (k, v) := by
  unfold dinsert at h
  by_cases hc : d.any (fun q => q.1 == k) = true
  · rw [if_pos hc] at h
    obtain ⟨q, hq, heq⟩ := List.mem_map.mp h
    by_cases hqk : (q.1 == k) = true
    · rw [if_pos hqk] at heq
      exact Or.inr heq.symm
    · rw [if_neg hqk] at heq
      exact Or.inl (heq ▸ hq)
  · rw [if_neg hc] at h
    rcases List.mem_append.mp h with hm | hm
    · exact Or.inl hm
    · simp only [List.mem_singleton] at hm
      exact Or.inr hm

theorem dget_head {κ α : Type} [BEq κ] [LawfulBEq κ] [DecidableEq κ]
    (p : κ × α) (d : List (κ × α)) : dget (p :: d) p.1 = some p.2 := by
  rw [dget_cons, if_pos rfl]

theorem dget_filter_key {κ α : Type} [BEq κ] [LawfulBEq κ] [DecidableEq κ]
    (d : List (κ × α)) (q : κ → Bool) (k : κ) :
    dget (d.filter (fun p => q p.1)) k = if q k then dget d k else none := by
  have hft : ¬(false = true) := by simp
  induction d with
  | nil => cases hq : q k <;> rfl
  | cons p d ih =>
    rw [List.filter_cons]
    by_cases hpk : p.1 = k
    · subst hpk
      cases hq : q p.1 with
      | false =>
        rw [if_neg hft, ih, hq, if_neg hft, if_neg hft]
      | true =>
        rw [if_pos rfl, if_pos rfl, dget_head, dget_head]
    · cases hq : q p.1 with
      | false =>
        rw [if_neg hft, ih, dget_cons, if_neg hpk]
      | true =>
        rw [if_pos rfl, dget_cons, if_neg hpk, ih, dget_cons, if_neg hpk]

theorem nodup_filter_keys {κ α : Type} {d : List (κ × α)} (q : κ × α → Bool)
    (hd : NodupKeys d) : NodupKeys (d.filter q) := by
  unfold NodupKeys dkeys at hd ⊢
  exact hd.sublist ((List.filter_sublist d).map Prod.fst)

theorem dinsert_no_change {κ α : Type} [BEq κ] [LawfulBEq κ] [DecidableEq κ]
    {d : List (κ × α)} {k : κ} {v : α} (hd : NodupKeys d) (h : dget d k = some v) :
    dinsert d k v = d := by
  have hk : k ∈ dkeys d := by
    rw [← dget_isSome_iff_mem_dkeys, h]
    rfl
  unfold dinsert
  rw [if_pos ((any_key_eq_mem_dkeys d k).mpr hk)]
  have hcong : ∀ p ∈ d, (if p.1 == k then (k, v) else p) = p := by
    intro p hp
    by_cases hpk : (p.1 == k) = true
    · rw [if_pos hpk]
      have hk' : p.1 = k := by simpa using hpk
      have hmem : (k, p.2) ∈ d := by
        obtain ⟨p1, p2⟩ := p
        cases hk'
        exact hp
      have : dget d k = some p.2 := (dget_eq_some_iff_mem hd).mpr hmem
      rw [this] at h
      obtain ⟨p1, p2⟩ := p
      cases hk'
      simp only [Option.some_inj] at h
      rw [h]
    · rw [if_neg hpk]
  rw [List.map_congr_left hcong]
  simp

theorem isEmpty_false_of_dget {κ α : Type} [BEq κ] {d : List (κ × α)} {k : κ} {v : α}
    (h : dget d k = some v) : d.isEmpty = false := by
  cases d with
  | nil => cases h
  | cons p d => rfl

theorem eq_nil_of_dkeys_nil {κ α : Type} {d : List (κ × α)} (h : dkeys d = []) :
    d = [] := by
  cases d with
  | nil => rfl
  | cons p d => cases h

theorem splitOnceChar_fst_mem {c x : Char} : ∀ {l : List Char},
    x ∈ (splitOnceChar c l).1 → x ∈ l := by
  intro l
  induction l with
  | nil => intro h; cases h
  | cons d rest ih =>
    unfold splitOnceChar
    by_cases hd : (d == c) = true
    · rw [if_pos hd]
      intro h
      cases h
    · rw [if_neg hd]
      intro h
      rcases List.mem_cons.mp h with rfl | h
      · exact List.mem_cons_self x rest
      · exact List.mem_cons_of_mem d (ih h)

theorem splitOnceChar_snd_mem {c x : Char} : ∀ {l : List Char},
    x ∈ (splitOnceChar c l).2 → x ∈ l := by
  intro l
  induction l with
  | nil => intro h; cases h
  | cons d rest ih =>
    unfold splitOnceChar
    by_cases hd : (d == c) = true
    · rw [if_pos hd]
      intro h
      exact List.mem_cons_of_mem d h
    · rw [if_neg hd]
      intro h
      exact List.mem_cons_of_mem d (ih h)

theorem splitOnceChar_fst_free (c : Char) : ∀ (l : List Char), c ∉ (splitOnceChar c l).1 := by
  intro l
  induction l with
  | nil => intro h; cases h
  | cons d rest ih =>
    unfold splitOnceChar
    by_cases hd : (d == c) = true
    · rw [if_pos hd]
      intro h
      cases h
    · rw [if_neg hd]
      intro h
      rcases List.mem_cons.mp h with heq | h
      · exact hd (by simp [heq.symm])
      · exact ih h

theorem splitOnceChar_append {c : Char} {ys : List Char} : ∀ {xs : List Char}, c ∉ xs →
    splitOnceChar c (xs ++ c :: ys) = (xs, ys) := by
  intro xs
  induction xs with
  | nil =>
    intro _
    rw [List.nil_append]
    unfold splitOnceChar
    rw [if_pos (by simp)]
  | cons x xs ih =>
    intro h
    rw [List.cons_append]
    unfold splitOnceChar
    have hx : (x == c) = false := by
      simp only [beq_eq_false_iff_ne]
      intro hh
      exact h (hh ▸ List.mem_cons_self x xs)
    rw [if_neg (by simp [hx])]
    rw [ih (fun hm => h (List.mem_cons_of_mem x hm))]

theorem interL_append_sep (c : Char) : ∀ (pieces : List (List Char)), pieces ≠ [] →
    interL c pieces ++ [c] = interL c (pieces ++ [[]])
  | [], h => absurd rfl h
  | [q], _ => by
    show q ++ [c] = q ++ c :: interL c [[]]
    rfl
  | q :: q2 :: qs, _ => by
    show (q ++ c :: interL c (q2 :: qs)) ++ [c] = q ++ c :: interL c ((q2 :: qs) ++ [[]])
    rw [List.append_assoc, List.cons_append, interL_append_sep c (q2 :: qs) (by simp)]

end EmitterHelpers

/-! ## Well-formedness lemmas -/

section WFLemmas

theorem wfDict_nil : WFDict [] := fun p hp => absurd hp (List.not_mem_nil p)

theorem wf_dinsert {d : PropertyDict} {k v : String} (hd : WFDict d)
    (hk : wfKey k) (hv : wfVal v) : WFDict (dinsert d k v) := by
  intro p hp
  rcases mem_dinsert hp with hm | rfl
  · exact hd p hm
  · exact ⟨hk, hv⟩

theorem wf_merge {base extra : PropertyDict} (hb : WFDict base) (he : WFDict extra) :
    WFDict (merge_styles base extra) := by
  induction extra generalizing base with
  | nil => exact hb
  | cons p extra ih =>
    have hp := he p (List.mem_cons_self p extra)
    exact ih (wf_dinsert hb hp.1 hp.2) (fun q hq => he q (List.mem_cons_of_mem p hq))

theorem wf_filter {d : PropertyDict} (q : String × String → Bool) (hd : WFDict d) :
    WFDict (d.filter q) := fun p hp => hd p (List.mem_of_mem_filter hp)

theorem wf_sortPairs {d : PropertyDict} (hd : WFDict d) : WFDict (sortPairs d) :=
  fun p hp => hd p ((sortPairs_perm d).subset hp)

theorem pyStrip_of_wfVal {v : String} (hv : wfVal v) : pyStrip v = v := by
  unfold pyStrip
  rw [hv.2.2.2]

end WFLemmas

/-! ## Normalizer step lemmas -/

section NtpLemmas

theorem dget_ntpFW_ne (style n : PropertyDict) {k : String} (hk : k ≠ "font-weight") :
    dget (ntpFW style n) k = dget n k := by
  unfold ntpFW
  cases dget style "font-weight" with
  | none => rfl
  | some fw =>
    dsimp only
    split_ifs with h
    · rw [dget_dinsert, if_neg hk]
    · rfl

theorem dget_ntpFS_ne (style n : PropertyDict) {k : String} (hk : k ≠ "font-style") :
    dget (ntpFS style n) k = dget n k := by
  unfold ntpFS
  cases dget style "font-style" with
  | none => rfl
  | some fs =>
    dsimp only
    split_ifs with h
    · rw [dget_dinsert, if_neg hk]
    · rfl

theorem dget_ntpTD_ne (style n : PropertyDict) {k : String} (hk : k ≠ "text-decoration") :
    dget (ntpTD style n) k = dget n k := by
  unfold ntpTD
  cases dget style "text-decoration" with
  | none => rfl
  | some td =>
    dsimp only
    split_ifs with h
    · rw [dget_dinsert, if_neg hk]
    · rfl

theorem dget_ntpTA_ne (style n : PropertyDict) {k : String} (hk : k ≠ "text-align") :
    dget (ntpTA style n) k = dget n k := by
  unfold ntpTA
  cases dget style "text-align" with
  | none => rfl
  | some ta =>
    dsimp only
    split_ifs with h
    · rw [dget_dinsert, if_neg hk]
    · rfl

theorem dget_ntp_fw (C : PropertyDict) :
    dget (normalize_tracked_properties C) "font-weight" =
      (match dget C "font-weight" with
       | some fw =>
         if fw ≠ "" ∧ pyLower (pyStrip fw) ∈ bold_values then some "bold" else none
       | none => none) := by
  unfold normalize_tracked_properties
  rw [dget_ntpTA_ne _ _ (by decide), dget_ntpTD_ne _ _ (by decide),
    dget_ntpFS_ne _ _ (by decide)]
  unfold ntpFW
  cases dget C "font-weight" with
  | none => rfl
  | some fw =>
    dsimp only
    split_ifs with h
    · rw [dget_dinsert, if_pos rfl]
    · rfl

theorem dget_ntp_fs (C : PropertyDict) :
    dget (normalize_tracked_properties C) "font-style" =
      (match dget C "font-style" with
       | some fs =>
         if fs ≠ "" ∧ pyLower (pyStrip fs) ∈ italic_values then some "italic" else none
       | none => none) := by
  unfold normalize_tracked_properties
  rw [dget_ntpTA_ne _ _ (by decide), dget_ntpTD_ne _ _ (by decide)]
  unfold ntpFS
  cases dget C "font-style" with
  | none => rw [dget_ntpFW_ne _ _ (by decide)]; rfl
  | some fs =>
    dsimp only
    split_ifs with h
    · rw [dget_dinsert, if_pos rfl]
    · rw [dget_ntpFW_ne _ _ (by decide)]; rfl

theorem dget_ntp_td (C : PropertyDict) :
    dget (normalize_tracked_properties C) "text-decoration" =
      (match dget C "text-decoration" with
       | some td =>
         if td ≠ "" ∧ pyInStr "underline" (pyLower td) = true
         then some "underline" else none
       | none => none) := by
  unfold normalize_tracked_properties
  rw [dget_ntpTA_ne _ _ (by decide)]
  unfold ntpTD
  cases dget C "text-decoration" with
  | none => rw [dget_ntpFS_ne _ _ (by decide), dget_ntpFW_ne _ _ (by decide)]; rfl
  | some td =>
    dsimp only
    split_ifs with h
    · rw [dget_dinsert, if_pos rfl]
    · rw [dget_ntpFS_ne _ _ (by decide), dget_ntpFW_ne _ _ (by decide)]; rfl

theorem dget_ntp_ta (C : PropertyDict) :
    dget (normalize_tracked_properties C) "text-align" =
      (match dget C "text-align" with
       | some ta => if ta ≠ "" then some (pyStrip ta) else none
       | none => none) := by
  unfold normalize_tracked_properties
  have hn3 : dget (ntpTD C (ntpFS C (ntpFW C []))) "text-align" = none := by
    rw [dget_ntpTD_ne _ _ (by decide), dget_ntpFS_ne _ _ (by decide),
      dget_ntpFW_ne _ _ (by decide)]
    rfl
  unfold ntpTA
  cases dget C "text-align" with
  | none => exact hn3
  | some ta =>
    dsimp only
    split_ifs with h
    · rw [dget_dinsert, if_pos rfl]
    · exact hn3

theorem dget_ntp_other (C : PropertyDict) {k : String} (h1 : k ≠ "font-weight")
    (h2 : k ≠ "font-style") (h3 : k ≠ "text-decoration") (h4 : k ≠ "text-align") :
    dget (normalize_tracked_properties C) k = none := by
  unfold normalize_tracked_properties
  rw [dget_ntpTA_ne _ _ h4, dget_ntpTD_ne _ _ h3, dget_ntpFS_ne _ _ h2,
    dget_ntpFW_ne _ _ h1]
  rfl

theorem nodup_ntpFW (style : PropertyDict) {n : PropertyDict} (hn : NodupKeys n) :
    NodupKeys (ntpFW style n) := by
  unfold ntpFW
  cases dget style "font-weight" with
  | none => exact hn
  | some fw =>
    dsimp only
    split_ifs with h
    · exact nodupKeys_dinsert _ _ hn
    · exact hn

theorem nodup_ntpFS (style : PropertyDict) {n : PropertyDict} (hn : NodupKeys n) :
    NodupKeys (ntpFS style n) := by
  unfold ntpFS
  cases dget style "font-style" with
  | none => exact hn
  | some fs =>
    dsimp only
    split_ifs with h
    · exact nodupKeys_dinsert _ _ hn
    · exact hn

theorem nodup_ntpTD (style : PropertyDict) {n : PropertyDict} (hn : NodupKeys n) :
    NodupKeys (ntpTD style n) := by
  unfold ntpTD
  cases dget style "text-decoration" with
  | none => exact hn
  | some td =>
    dsimp only
    split_ifs with h
    · exact nodupKeys_dinsert _ _ hn
    · exact hn

theorem nodup_ntpTA (style : PropertyDict) {n : PropertyDict} (hn : NodupKeys n) :
    NodupKeys (ntpTA style n) := by
  unfold ntpTA
  cases dget style "text-align" with
  | none => exact hn
  | some ta =>
    dsimp only
    split_ifs with h
    · exact nodupKeys_dinsert _ _ hn
    · exact hn

theorem ntp_nodup (style : PropertyDict) :
    NodupKeys (normalize_tracked_properties style) :=
  nodup_ntpTA _ (nodup_ntpTD _ (nodup_ntpFS _ (nodup_ntpFW _ nodupKeys_nil)))

theorem wf_ntpFW (style : PropertyDict) {n : PropertyDict} (hn : WFDict n) :
    WFDict (ntpFW style n) := by
  unfold ntpFW
  cases dget style "font-weight" with
  | none => exact hn
  | some fw =>
    dsimp only
    split_ifs with h
    · exact wf_dinsert hn (by decide) (by decide)
    · exact hn

theorem wf_ntpFS (style : PropertyDict) {n : PropertyDict} (hn : WFDict n) :
    WFDict (ntpFS style n) := by
  unfold ntpFS
  cases dget style "font-style" with
  | none => exact hn
  | some fs =>
    dsimp only
    split_ifs with h
    · exact wf_dinsert hn (by decide) (by decide)
    · exact hn

theorem wf_ntpTD (style : PropertyDict) {n : PropertyDict} (hn : WFDict n) :
    WFDict (ntpTD style n) := by
  unfold ntpTD
  cases dget style "text-decoration" with
  | none => exact hn
  | some td =>
    dsimp only
    split_ifs with h
    · exact wf_dinsert hn (by decide) (by decide)
    · exact hn

theorem wf_ntpTA {style : PropertyDict} (hs : WFDict style) {n : PropertyDict}
    (hn : WFDict n) : WFDict (ntpTA style n) := by
  unfold ntpTA
  cases hta : dget style "text-align" with
  | none => exact hn
  | some ta =>
    dsimp only
    split_ifs with h
    · have hv : wfVal ta := (hs _ (dget_mem hta)).2
      exact wf_dinsert hn (by decide) (by rw [pyStrip_of_wfVal hv]; exact hv)
    · exact hn

theorem wf_ntp {style : PropertyDict} (hs : WFDict style) :
    WFDict (normalize_tracked_properties style) :=
  wf_ntpTA hs (wf_ntpTD _ (wf_ntpFS _ (wf_ntpFW _ wfDict_nil)))

theorem ntpFW_congr {a b : PropertyDict}
    (h : dget a "font-weight" = dget b "font-weight") (n : PropertyDict) :
    ntpFW a n = ntpFW b n := by
  unfold ntpFW
  rw [h]

theorem ntpFS_congr {a b : PropertyDict}
    (h : dget a "font-style" = dget b "font-style") (n : PropertyDict) :
    ntpFS a n = ntpFS b n := by
  unfold ntpFS
  rw [h]

theorem ntpTD_congr {a b : PropertyDict}
    (h : dget a "text-decoration" = dget b "text-decoration") (n : PropertyDict) :
    ntpTD a n = ntpTD b n := by
  unfold ntpTD
  rw [h]

theorem ntpTA_congr {a b : PropertyDict}
    (h : dget a "text-align" = dget b "text-align") (n : PropertyDict) :
    ntpTA a n = ntpTA b n := by
  unfold ntpTA
  rw [h]

theorem ntp_congr {a b : PropertyDict}
    (h1 : dget a "font-weight" = dget b "font-weight")
    (h2 : dget a "font-style" = dget b "font-style")
    (h3 : dget a "text-decoration" = dget b "text-decoration")
    (h4 : dget a "text-align" = dget b "text-align") :
    normalize_tracked_properties a = normalize_tracked_properties b := by
  unfold normalize_tracked_properties
  rw [ntpFW_congr h1, ntpFS_congr h2, ntpTD_congr h3, ntpTA_congr h4]

end NtpLemmas

/-! ## Tag-feature lemmas -/

section FeatureLemmas

theorem features_cases (name : String) :
    features_from_tag name = [] ∨ features_from_tag name = [("font-weight", "bold")] ∨
      features_from_tag name = [("font-style", "italic")] ∨
      features_from_tag name = [("text-decoration", "underline")] := by
  simp only [features_from_tag]
  split_ifs <;> simp

theorem features_nodup (name : String) : NodupKeys (features_from_tag name) := by
  rcases features_cases name with h | h | h | h <;> rw [h] <;> decide

theorem features_wf (name : String) : WFDict (features_from_tag name) := by
  rcases features_cases name with h | h | h | h <;> rw [h] <;> decide

end FeatureLemmas

/-! ## The normalizer agrees on the computed and the written-back styles -/

section NtpOrLemmas

theorem ntpFW_or_eq {C Fi : PropertyDict}
    (hfi : dget Fi "font-weight" =
      (dget (normalize_tracked_properties C) "font-weight").or (dget C "font-weight"))
    (n : PropertyDict) : ntpFW Fi n = ntpFW C n := by
  have hT := dget_ntp_fw C
  unfold ntpFW
  cases hC : dget C "font-weight" with
  | none =>
    simp only [hC] at hT
    have hfi' : dget Fi "font-weight" = none := by rw [hfi, hT, hC]; rfl
    simp only [hfi']
  | some v =>
    simp only [hC] at hT
    by_cases hcond : v ≠ "" ∧ pyLower (pyStrip v) ∈ bold_values
    · rw [if_pos hcond] at hT
      have hfi' : dget Fi "font-weight" = some "bold" := by rw [hfi, hT]; rfl
      simp only [hfi']
      rw [if_pos (show ("bold" : String) ≠ "" ∧ pyLower (pyStrip "bold") ∈ bold_values from
        by decide), if_pos hcond]
    · rw [if_neg hcond] at hT
      have hfi' : dget Fi "font-weight" = some v := by rw [hfi, hT, hC]; rfl
      simp only [hfi']

theorem ntpFS_or_eq {C Fi : PropertyDict}
    (hfi : dget Fi "font-style" =
      (dget (normalize_tracked_properties C) "font-style").or (dget C "font-style"))
    (n : PropertyDict) : ntpFS Fi n = ntpFS C n := by
  have hT := dget_ntp_fs C
  unfold ntpFS
  cases hC : dget C "font-style" with
  | none =>
    simp only [hC] at hT
    have hfi' : dget Fi "font-style" = none := by rw [hfi, hT, hC]; rfl
    simp only [hfi']
  | some v =>
    simp only [hC] at hT
    by_cases hcond : v ≠ "" ∧ pyLower (pyStrip v) ∈ italic_values
    · rw [if_pos hcond] at hT
      have hfi' : dget Fi "font-style" = some "italic" := by rw [hfi, hT]; rfl
      simp only [hfi']
      rw [if_pos (show ("italic" : String) ≠ "" ∧ pyLower (pyStrip "italic") ∈ italic_values from
        by decide), if_pos hcond]
    · rw [if_neg hcond] at hT
      have hfi' : dget Fi "font-style" = some v := by rw [hfi, hT, hC]; rfl
      simp only [hfi']

theorem ntpTD_or_eq {C Fi : PropertyDict}
    (hfi : dget Fi "text-decoration" =
      (dget (normalize_tracked_properties C) "text-decoration").or (dget C "text-decoration"))
    (n : PropertyDict) : ntpTD Fi n = ntpTD C n := by
  have hT := dget_ntp_td C
  unfold ntpTD
  cases hC : dget C "text-decoration" with
  | none =>
    simp only [hC] at hT
    have hfi' : dget Fi "text-decoration" = none := by rw [hfi, hT, hC]; rfl
    simp only [hfi']
  | some v =>
    simp only [hC] at hT
    by_cases hcond : v ≠ "" ∧ pyInStr "underline" (pyLower v) = true
    · rw [if_pos hcond] at hT
      have hfi' : dget Fi "text-decoration" = some "underline" := by rw [hfi, hT]; rfl
      simp only [hfi']
      rw [if_pos (show ("underline" : String) ≠ "" ∧
        pyInStr "underline" (pyLower "underline") = true from by decide), if_pos hcond]
    · rw [if_neg hcond] at hT
      have hfi' : dget Fi "text-decoration" = some v := by rw [hfi, hT, hC]; rfl
      simp only [hfi']

theorem ntpTA_or_eq {C Fi : PropertyDict} (hwf : WFDict C)
    (hfi : dget Fi "text-align" =
      (dget (normalize_tracked_properties C) "text-align").or (dget C "text-align"))
    (n : PropertyDict) : ntpTA Fi n = ntpTA C n := by
  have hT := dget_ntp_ta C
  unfold ntpTA
  cases hC : dget C "text-align" with
  | none =>
    simp only [hC] at hT
    have hfi' : dget Fi "text-align" = none := by rw [hfi, hT, hC]; rfl
    simp only [hfi']
  | some v =>
    simp only [hC] at hT
    have hv : wfVal v := (hwf _ (dget_mem hC)).2
    have hstrip : pyStrip v = v := pyStrip_of_wfVal hv
    rw [if_pos hv.1] at hT
    have hfi' : dget Fi "text-align" = some v := by rw [hfi, hT, hstrip]; rfl
    simp only [hfi', hstrip]

theorem ntp_or_eq {C Fi : PropertyDict} (hwf : WFDict C)
    (hfi : ∀ k, dget Fi k = (dget (normalize_tracked_properties C) k).or (dget C k)) :
    normalize_tracked_properties Fi = normalize_tracked_properties C := by
  unfold normalize_tracked_properties
  rw [ntpFW_or_eq (hfi "font-weight"), ntpFS_or_eq (hfi "font-style"),
    ntpTD_or_eq (hfi "text-decoration"), ntpTA_or_eq hwf (hfi "text-align")]

end NtpOrLemmas

/-! ## Selector-fold lemmas -/

section SelLemmas

theorem selStep_cases (name : String) (attrs : List (String × String))
    (acc : PropertyDict) (e : String × PropertyDict) :
    selStep name attrs acc e = acc ∨
      (selStep name attrs acc e = merge_styles acc e.2 ∧
        ∃ sel, parseSimpleSelector e.1 = some sel ∧ matchesSelector sel name attrs = true) := by
  unfold selStep
  cases hp : parseSimpleSelector e.1 with
  | none => exact Or.inl rfl
  | some sel =>
    dsimp only
    by_cases hm : matchesSelector sel name attrs = true
    · rw [if_pos hm]
      exact Or.inr ⟨rfl, sel, rfl, hm⟩
    · rw [if_neg hm]
      exact Or.inl rfl

theorem selFold_keys_mono (name : String) (attrs : List (String × String)) :
    ∀ (m : SelectorStyleMap) (acc : PropertyDict) (k : String), k ∈ dkeys acc →
      k ∈ dkeys (m.foldl (selStep name attrs) acc)
  | [], _, _, h => h
  | e :: m, acc, k, h => by
    show k ∈ dkeys (m.foldl (selStep name attrs) (selStep name attrs acc e))
    apply selFold_keys_mono name attrs m _ k
    rcases selStep_cases name attrs acc e with hc | ⟨hc, -⟩
    · rw [hc]; exact h
    · rw [hc]; exact (mem_dkeys_merge _ _ _).mpr (Or.inl h)

theorem selFold_keys (name : String) (attrs : List (String × String)) :
    ∀ (m : SelectorStyleMap) (acc : PropertyDict) (k : String),
      k ∈ dkeys (m.foldl (selStep name attrs) acc) →
      k ∈ dkeys acc ∨ ∃ e ∈ m, k ∈ dkeys e.2 ∧
        ∃ sel, parseSimpleSelector e.1 = some sel ∧ matchesSelector sel name attrs = true
  | [], _, _, h => Or.inl h
  | e :: m, acc, k, h => by
    rcases selFold_keys name attrs m (selStep name attrs acc e) k h with
      h1 | ⟨e', he', hk, hsel⟩
    · rcases selStep_cases name attrs acc e with hc | ⟨hc, sel, hp, hm⟩
      · rw [hc] at h1
        exact Or.inl h1
      · rw [hc] at h1
        rcases (mem_dkeys_merge _ _ _).mp h1 with h2 | h2
        · exact Or.inl h2
        · exact Or.inr ⟨e, List.mem_cons_self e m, h2, sel, hp, hm⟩
    · exact Or.inr ⟨e', List.mem_cons_of_mem e he', hk, hsel⟩

theorem nodup_selFold (name : String) (attrs : List (String × String)) :
    ∀ (m : SelectorStyleMap) (acc : PropertyDict), NodupKeys acc →
      NodupKeys (m.foldl (selStep name attrs) acc)
  | [], _, h => h
  | e :: m, acc, h => by
    apply nodup_selFold name attrs m
    rcases selStep_cases name attrs acc e with hc | ⟨hc, -⟩
    · rw [hc]; exact h
    · rw [hc]; exact nodupKeys_merge _ _ h

theorem wf_selFold (name : String) (attrs : List (String × String)) :
    ∀ (m : SelectorStyleMap) (acc : PropertyDict), (∀ e ∈ m, WFDict e.2) → WFDict acc →
      WFDict (m.foldl (selStep name attrs) acc)
  | [], _, _, hacc => hacc
  | e :: m, acc, hm, hacc => by
    apply wf_selFold name attrs m _ (fun e' he' => hm e' (List.mem_cons_of_mem e he'))
    rcases selStep_cases name attrs acc e with hc | ⟨hc, -⟩
    · rw [hc]; exact hacc
    · rw [hc]; exact wf_merge hacc (hm e (List.mem_cons_self e m))

theorem selFold_nil (name : String) (attrs : List (String × String)) :
    ∀ (m : SelectorStyleMap),
      (∀ e ∈ m, ∀ sel, parseSimpleSelector e.1 = some sel →
        matchesSelector sel name attrs = true → e.2 = []) →
      m.foldl (selStep name attrs) [] = []
  | [], _ => rfl
  | e :: m, h => by
    show m.foldl (selStep name attrs) (selStep name attrs [] e) = []
    have hstep : selStep name attrs [] e = [] := by
      rcases selStep_cases name attrs [] e with hc | ⟨hc, sel, hp, hm⟩
      · exact hc
      · rw [hc, h e (List.mem_cons_self e m) sel hp hm]
        rfl
    rw [hstep]
    exact selFold_nil name attrs m (fun e' he' => h e' (List.mem_cons_of_mem e he'))

theorem matchesSelector_mono {attrs attrs2 : List (String × String)} {name : String}
    (hclass : dget attrs2 "class" = none) (hid : dget attrs2 "id" = dget attrs "id")
    (sel : Selector) (h : matchesSelector sel name attrs2 = true) :
    matchesSelector sel name attrs = true := by
  cases sel with
  | tagName t => exact h
  | className c =>
    simp only [matchesSelector, hclass] at h
    simp at h
  | idName i =>
    simp only [matchesSelector] at h ⊢
    rw [hid] at h
    exact h

end SelLemmas

/-! ## Inline-style parser lemmas -/

section InlineLemmas

theorem inlineDeclStep_nil (styles : PropertyDict) : inlineDeclStep styles [] = styles := rfl

theorem inlineDeclStep_nodup {styles : PropertyDict} (h : NodupKeys styles)
    (part : List Char) : NodupKeys (inlineDeclStep styles part) := by
  simp only [inlineDeclStep]
  split_ifs
  · exact h
  · exact h
  · exact nodupKeys_dinsert _ _ h

theorem parse_inline_nodup (ov : Option String) : NodupKeys (parse_inline_style ov) := by
  unfold parse_inline_style
  cases ov with
  | none => exact nodupKeys_nil
  | some s =>
    dsimp only
    split_ifs
    · exact nodupKeys_nil
    · have hgen : ∀ (parts : List (List Char)) (acc : PropertyDict), NodupKeys acc →
          NodupKeys (parts.foldl inlineDeclStep acc) := by
        intro parts
        induction parts with
        | nil => intro acc h; exact h
        | cons p ps ih => intro acc h; exact ih _ (inlineDeclStep_nodup h p)
      exact hgen _ [] nodupKeys_nil

theorem wf_lower_strip_key {x part : List Char} (hsub : ∀ c ∈ x, c ∈ part)
    (hfree : ∀ c ∈ part, c ≠ ';') (hcolon : ':' ∉ x)
    (hne : (⟨pyLowerL (pyStripL x)⟩ : String) ≠ "") :
    wfKey ⟨pyLowerL (pyStripL x)⟩ := by
  refine ⟨hne, ?_, ?_, ?_⟩
  · intro c hc
    obtain ⟨d, hd, rfl⟩ := List.mem_map.mp hc
    have hdx : d ∈ x := mem_of_mem_pyStripL hd
    constructor
    · exact pyLowerChar_ne_of_ne (by decide) (hfree d (hsub d hdx))
    · exact pyLowerChar_ne_of_ne (by decide) (fun hh => hcolon (hh ▸ hdx))
  · exact pyLowerL_idem _
  · show pyStripL (pyLowerL (pyStripL x)) = pyLowerL (pyStripL x)
    rw [pyStripL_map_lower, pyStripL_idem]

theorem wf_lower_strip_val {x part : List Char} (hsub : ∀ c ∈ x, c ∈ part)
    (hfree : ∀ c ∈ part, c ≠ ';')
    (hne : (⟨pyLowerL (pyStripL x)⟩ : String) ≠ "") :
    wfVal ⟨pyLowerL (pyStripL x)⟩ := by
  refine ⟨hne, ?_, ?_, ?_⟩
  · intro c hc
    obtain ⟨d, hd, rfl⟩ := List.mem_map.mp hc
    have hdx : d ∈ x := mem_of_mem_pyStripL hd
    exact pyLowerChar_ne_of_ne (by decide) (hfree d (hsub d hdx))
  · exact pyLowerL_idem _
  · show pyStripL (pyLowerL (pyStripL x)) = pyLowerL (pyStripL x)
    rw [pyStripL_map_lower, pyStripL_idem]

theorem inlineDeclStep_wf {styles : PropertyDict} (hs : WFDict styles) {part : List Char}
    (hfree : ∀ c ∈ part, c ≠ ';') : WFDict (inlineDeclStep styles part) := by
  simp only [inlineDeclStep]
  split_ifs with h1 h2
  · exact hs
  · exact hs
  · simp only [Bool.or_eq_true, not_or, Bool.not_eq_true] at h2
    apply wf_dinsert hs
    · exact wf_lower_strip_key (fun c hc => splitOnceChar_fst_mem hc) hfree
        (splitOnceChar_fst_free ':' part) (str_ne_of_isEmpty_false h2.1)
    · exact wf_lower_strip_val (fun c hc => splitOnceChar_snd_mem hc) hfree
        (str_ne_of_isEmpty_false h2.2)

theorem parse_inline_wf (ov : Option String) : WFDict (parse_inline_style ov) := by
  unfold parse_inline_style
  cases ov with
  | none => exact wfDict_nil
  | some s =>
    dsimp only
    split_ifs
    · exact wfDict_nil
    · have hpieces := pySplitPred_pieces_sep_free (fun c => c == ';') s.data
      have hgen : ∀ (parts : List (List Char)), (∀ part ∈ parts, ∀ c ∈ part, c ≠ ';') →
          ∀ (acc : PropertyDict), WFDict acc → WFDict (parts.foldl inlineDeclStep acc) := by
        intro parts
        induction parts with
        | nil => intro _ acc hacc; exact hacc
        | cons p ps ih =>
          intro hp acc hacc
          exact ih (fun q hq => hp q (List.mem_cons_of_mem p hq)) _
            (inlineDeclStep_wf hacc (hp p (List.mem_cons_self p ps)))
      refine hgen _ (fun part hpart c hc => ?_) [] wfDict_nil
      have := hpieces part hpart c hc
      simpa using this

end InlineLemmas

/-! ## Serialize/parse round trip -/

section RoundTrip

theorem inlineDeclStep_encode {styles : PropertyDict} {p : String × String}
    (hk : wfKey p.1) (hv : wfVal p.2) :
    inlineDeclStep styles (encodeDecl p) = dinsert styles p.1 p.2 := by
  have hcolmem : ':' ∈ encodeDecl p := by
    unfold encodeDecl
    exact List.mem_append.mpr (Or.inr (List.mem_cons_self _ _))
  have hstrip_ne : (pyStripL (encodeDecl p)).isEmpty = false :=
    isEmpty_false_of_ne_nil (pyStripL_ne_nil_of_mem hcolmem (by decide))
  have hany : (encodeDecl p).any (fun c => c == ':') = true :=
    List.any_eq_true.mpr ⟨':', hcolmem, by simp⟩
  have hsplit : splitOnceChar ':' (encodeDecl p) = (p.1.data, p.2.data) :=
    splitOnceChar_append (fun hm => ((hk.2.1 ':' hm).2) rfl)
  have h1' : (⟨p.1.data⟩ : String) ≠ "" := by rw [str_mk_data]; exact hk.1
  have h2' : (⟨p.2.data⟩ : String) ≠ "" := by rw [str_mk_data]; exact hv.1
  have hc1 : ((pyStripL (encodeDecl p)).isEmpty
      || !((encodeDecl p).any (fun c => c == ':'))) = false := by
    rw [hstrip_ne, hany]
    rfl
  simp only [inlineDeclStep, hc1, hsplit, Bool.false_eq_true, if_false]
  rw [hk.2.2.2, hk.2.2.1, hv.2.2.2, hv.2.2.1]
  have hc2 : ((⟨p.1.data⟩ : String).isEmpty || (⟨p.2.data⟩ : String).isEmpty) = false := by
    rw [str_isEmpty_false h1', str_isEmpty_false h2']
    rfl
  simp only [hc2, Bool.false_eq_true, if_false]

theorem foldl_inlineDeclStep_encode :
    ∀ (entries : PropertyDict) (acc : PropertyDict),
      (∀ p ∈ entries, wfKey p.1 ∧ wfVal p.2) →
      (entries.map encodeDecl).foldl inlineDeclStep acc = merge_styles acc entries
  | [], _, _ => rfl
  | p :: entries, acc, h => by
    show (List.map encodeDecl entries).foldl inlineDeclStep
      (inlineDeclStep acc (encodeDecl p)) = _
    rw [inlineDeclStep_encode (h p (List.mem_cons_self p entries)).1
      (h p (List.mem_cons_self p entries)).2]
    show _ = merge_styles (dinsert acc p.1 p.2) entries
    exact foldl_inlineDeclStep_encode entries _ (fun q hq => h q (List.mem_cons_of_mem p hq))

theorem parse_serializeStyle (final : PropertyDict) (hwf : WFDict final) :
    parse_inline_style (some (serializeStyle final)) = merge_styles [] (sortPairs final) := by
  have hwfS : ∀ p ∈ sortPairs final, wfKey p.1 ∧ wfVal p.2 :=
    fun p hp => hwf p ((sortPairs_perm final).subset hp)
  have hne : (serializeStyle final).isEmpty = false := by
    apply str_isEmpty_false
    intro hh
    have hdata : (serializeStyle final).data = [] := by rw [hh]
    unfold serializeStyle at hdata
    simp at hdata
  have hfree : ∀ piece ∈ (sortPairs final).map encodeDecl, ∀ c ∈ piece,
      ((c == ';') = false) := by
    intro piece hpiece c hc
    obtain ⟨p, hp, rfl⟩ := List.mem_map.mp hpiece
    obtain ⟨hk, hv⟩ := hwfS p hp
    unfold encodeDecl at hc
    rcases List.mem_append.mp hc with hc | hc
    · simpa using (hk.2.1 c hc).1
    · rcases List.mem_cons.mp hc with rfl | hc
      · decide
      · simpa using hv.2.1 c hc
  unfold parse_inline_style
  dsimp only
  simp only [hne, Bool.false_eq_true, if_false]
  have hdata : (serializeStyle final).data =
      interL ';' ((sortPairs final).map encodeDecl) ++ [';'] := rfl
  rw [hdata]
  cases hsp : sortPairs final with
  | nil => rfl
  | cons q qs =>
    rw [hsp] at hwfS hfree
    rw [interL_append_sep ';' _ (by simp),
      pySplitPred_interL (fun c => c == ';') ';' (by decide) _ (by simp) ?_, List.foldl_append]
    · rw [foldl_inlineDeclStep_encode (q :: qs) [] hwfS, List.foldl_cons, List.foldl_nil,
        inlineDeclStep_nil]
    · intro piece hpiece c hc
      rcases List.mem_append.mp hpiece with hp | hp
      · exact hfree piece hp c hc
      · simp only [List.mem_singleton] at hp
        subst hp
        cases hc

theorem parse_serialize_dget (final : PropertyDict) (hwf : WFDict final)
    (hnd : NodupKeys final) (k : String) :
    dget (parse_inline_style (some (serializeStyle final))) k = dget final k := by
  rw [parse_serializeStyle final hwf,
    nil_merge_styles_of_nodup _ (nodupKeys_sortPairs hnd), dget_sortPairs hnd]

end RoundTrip

/-! ## The element-loop rewrite is idempotent -/

section RewriteIdem

theorem eq_nil_of_isEmpty {α : Type} {l : List α} (h : l.isEmpty = true) : l = [] := by
  cases l with
  | nil => rfl
  | cons a as => cases h

theorem eq_nil_of_no_keys {κ α : Type} {d : List (κ × α)}
    (h : ∀ k, k ∈ dkeys d → False) : d = [] := by
  cases d with
  | nil => rfl
  | cons p d => exact (h p.1 (by simp [dkeys])).elim

theorem nodup_ddel {κ α : Type} [BEq κ] (k : κ) {d : List (κ × α)} (hd : NodupKeys d) :
    NodupKeys (ddel d k) := nodup_filter_keys _ hd

theorem ddel_of_dget_none {κ α : Type} [BEq κ] [LawfulBEq κ] [DecidableEq κ]
    {d : List (κ × α)} {k : κ} (h : dget d k = none) : ddel d k = d := by
  unfold ddel
  rw [List.filter_eq_self]
  intro p hp
  have hne : p.1 ≠ k := by
    intro hh
    have : k ∈ dkeys d := mem_dkeys.mpr ⟨p.2, by rw [← hh]; exact hp⟩
    rw [← dget_isSome_iff_mem_dkeys, h] at this
    cases this
  simpa using hne

theorem exists_dget_of_isEmpty_false {d : PropertyDict} (h : d.isEmpty = false) :
    ∃ k v, dget d k = some v := by
  cases d with
  | nil => cases h
  | cons p rest => exact ⟨p.1, p.2, dget_head p rest⟩

theorem mem_dkeys_selFold_of (name : String) (attrs : List (String × String)) :
    ∀ (m : SelectorStyleMap) (acc : PropertyDict) (e : String × PropertyDict)
      (sel : Selector) (k : String), e ∈ m → parseSimpleSelector e.1 = some sel →
      matchesSelector sel name attrs = true → k ∈ dkeys e.2 →
      k ∈ dkeys (m.foldl (selStep name attrs) acc)
  | [], _, e, _, _, he, _, _, _ => absurd he (List.not_mem_nil e)
  | e' :: m, acc, e, sel, k, he, hp, hmt, hk => by
    show k ∈ dkeys (m.foldl (selStep name attrs) (selStep name attrs acc e'))
    rcases List.mem_cons.mp he with rfl | he2
    · apply selFold_keys_mono
      have hstep : selStep name attrs acc e = merge_styles acc e.2 := by
        unfold selStep
        rw [hp]
        dsimp only
        rw [if_pos hmt]
      rw [hstep]
      exact (mem_dkeys_merge _ _ _).mpr (Or.inr hk)
    · exact mem_dkeys_selFold_of name attrs m _ e sel k he2 hp hmt hk

theorem final_dget {C : PropertyDict} (k : String) :
    dget (finalOf C) k = (dget (normalize_tracked_properties C) k).or (dget C k) := by
  unfold finalOf
  rw [dget_merge_of_nodup _ _ (ntp_nodup C),
    dget_filter_key C (fun x => (dget (normalize_tracked_properties C) x).isNone) k]
  cases hT : dget (normalize_tracked_properties C) k with
  | none => simp
  | some t => simp

theorem ntp_sub_keys {C : PropertyDict} {k : String} {t : String}
    (h : dget (normalize_tracked_properties C) k = some t) : dget C k ≠ none := by
  intro hC
  by_cases h1 : k = "font-weight"
  · subst h1
    simp only [dget_ntp_fw, hC] at h
    exact Option.noConfusion h
  · by_cases h2 : k = "font-style"
    · subst h2
      simp only [dget_ntp_fs, hC] at h
      exact Option.noConfusion h
    · by_cases h3 : k = "text-decoration"
      · subst h3
        simp only [dget_ntp_td, hC] at h
        exact Option.noConfusion h
      · by_cases h4 : k = "text-align"
        · subst h4
          simp only [dget_ntp_ta, hC] at h
          exact Option.noConfusion h
        · rw [dget_ntp_other C h1 h2 h3 h4] at h
          exact Option.noConfusion h

theorem finalOf_keys {C : PropertyDict} (k : String) :
    dget (finalOf C) k = none ↔ dget C k = none := by
  rw [final_dget]
  cases hT : dget (normalize_tracked_properties C) k with
  | none => simp
  | some t =>
    constructor
    · intro h
      simp at h
    · intro h
      exact absurd h (ntp_sub_keys hT)

theorem finalOf_isEmpty_false {C : PropertyDict} (h : C.isEmpty = false) :
    (finalOf C).isEmpty = false := by
  obtain ⟨k, v, hk⟩ := exists_dget_of_isEmpty_false h
  apply isEmpty_false_of_ne_nil
  intro hh
  have h2 : dget (finalOf C) k = none := by
    rw [hh]
    rfl
  rw [finalOf_keys, hk] at h2
  exact Option.noConfusion h2

theorem rewriteAttrs_fixed_empty (selmap : SelectorStyleMap) (name : String)
    {attrs attrs2 : List (String × String)}
    (hCe : computedOf selmap name attrs = [])
    (hclass : dget attrs2 "class" = none)
    (hid : dget attrs2 "id" = dget attrs "id")
    (hsty : dget attrs2 "style" = dget attrs "style") :
    rewriteAttrs selmap name attrs2 = attrs2 := by
  have hkeysI : ∀ k, k ∈ dkeys (parse_inline_style (dget attrs "style")) → False := by
    intro k hk
    have hkc : k ∈ dkeys (computedOf selmap name attrs) := by
      unfold computedOf
      exact (mem_dkeys_merge _ _ _).mpr (Or.inl ((mem_dkeys_merge _ _ _).mpr (Or.inr hk)))
    rw [hCe] at hkc
    exact List.not_mem_nil k hkc
  have hkeysS : ∀ k, k ∈ dkeys (elementStyleFor selmap name attrs) → False := by
    intro k hk
    have hkc : k ∈ dkeys (computedOf selmap name attrs) := by
      unfold computedOf
      exact (mem_dkeys_merge _ _ _).mpr (Or.inl ((mem_dkeys_merge _ _ _).mpr (Or.inl hk)))
    rw [hCe] at hkc
    exact List.not_mem_nil k hkc
  have hkeysF : ∀ k, k ∈ dkeys (features_from_tag name) → False := by
    intro k hk
    have hkc : k ∈ dkeys (computedOf selmap name attrs) := by
      unfold computedOf
      exact (mem_dkeys_merge _ _ _).mpr (Or.inr hk)
    rw [hCe] at hkc
    exact List.not_mem_nil k hkc
  have hInil : parse_inline_style (dget attrs "style") = [] := eq_nil_of_no_keys hkeysI
  have hFnil : features_from_tag name = [] := eq_nil_of_no_keys hkeysF
  have hC2 : computedOf selmap name attrs2 = [] := by
    unfold computedOf
    rw [hsty, hInil, hFnil, merge_styles_nil, merge_styles_nil]
    apply selFold_nil
    intro e he sel hp hmatch
    apply eq_nil_of_no_keys
    intro k hk
    exact hkeysS k (mem_dkeys_selFold_of name attrs selmap [] e sel k he hp
      (matchesSelector_mono hclass hid sel hmatch) hk)
  simp only [rewriteAttrs]
  rw [if_pos (by simp [hC2]), ddel_of_dget_none hclass]

theorem rewriteAttrs_fixed_main (selmap : SelectorStyleMap) (name : String)
    {attrs attrs2 : List (String × String)} (hm : WFSelMap selmap)
    (hCne : (computedOf selmap name attrs).isEmpty = false)
    (hnd2 : NodupKeys attrs2)
    (hclass : dget attrs2 "class" = none)
    (hid : dget attrs2 "id" = dget attrs "id")
    (hsty : dget attrs2 "style" =
      some (serializeStyle (finalOf (computedOf selmap name attrs)))) :
    rewriteAttrs selmap name attrs2 = attrs2 := by
  have hndS : NodupKeys (elementStyleFor selmap name attrs) :=
    nodup_selFold name attrs selmap [] nodupKeys_nil
  have hndC : NodupKeys (computedOf selmap name attrs) := by
    unfold computedOf
    exact nodupKeys_merge _ _ (nodupKeys_merge _ _ hndS)
  have hwfC : WFDict (computedOf selmap name attrs) := by
    unfold computedOf
    exact wf_merge (wf_merge (wf_selFold name attrs selmap [] hm wfDict_nil)
      (parse_inline_wf _)) (features_wf name)
  have hndFi : NodupKeys (finalOf (computedOf selmap name attrs)) := by
    unfold finalOf
    exact nodupKeys_merge _ _ (nodup_filter_keys _ hndC)
  have hwfFi : WFDict (finalOf (computedOf selmap name attrs)) := by
    unfold finalOf
    exact wf_merge (wf_filter _ hwfC) (wf_ntp hwfC)
  obtain ⟨k0, v0, hk0⟩ := exists_dget_of_isEmpty_false hCne
  have hFik0 : dget (finalOf (computedOf selmap name attrs)) k0 ≠ none := by
    intro hnone
    rw [finalOf_keys, hk0] at hnone
    exact Option.noConfusion hnone
  have hI2 : ∀ k, dget (parse_inline_style (dget attrs2 "style")) k =
      dget (finalOf (computedOf selmap name attrs)) k := by
    intro k
    rw [hsty]
    exact parse_serialize_dget _ hwfFi hndFi k
  have hS2keys : ∀ k, k ∈ dkeys (elementStyleFor selmap name attrs2) →
      k ∈ dkeys (computedOf selmap name attrs) := by
    intro k hk
    rcases selFold_keys name attrs2 selmap [] k hk with h0 | ⟨e, he, hke, sel, hp, hmatch⟩
    · exact absurd h0 (List.not_mem_nil k)
    · have hmatch' := matchesSelector_mono hclass hid sel hmatch
      have hkS : k ∈ dkeys (elementStyleFor selmap name attrs) :=
        mem_dkeys_selFold_of name attrs selmap [] e sel k he hp hmatch' hke
      unfold computedOf
      exact (mem_dkeys_merge _ _ _).mpr (Or.inl ((mem_dkeys_merge _ _ _).mpr (Or.inl hkS)))
  have hC2 : ∀ k, dget (computedOf selmap name attrs2) k =
      dget (finalOf (computedOf selmap name attrs)) k := by
    intro k
    have hsplit : dget (computedOf selmap name attrs2) k =
        (dget (features_from_tag name) k).or
          ((dget (finalOf (computedOf selmap name attrs)) k).or
            (dget (elementStyleFor selmap name attrs2) k)) := by
      unfold computedOf
      rw [dget_merge_of_nodup _ _ (features_nodup name),
        dget_merge_of_nodup _ _ (parse_inline_nodup _), hI2 k]
      rfl
    rw [hsplit]
    cases hFk : dget (features_from_tag name) k with
    | none =>
      cases hFik : dget (finalOf (computedOf selmap name attrs)) k with
      | some t => rfl
      | none =>
        have hCk : dget (computedOf selmap name attrs) k = none := (finalOf_keys k).mp hFik
        have hS2 : dget (elementStyleFor selmap name attrs2) k = none := by
          rw [dget_eq_none_iff_not_mem_dkeys]
          intro hkmem
          have hmem := hS2keys k hkmem
          rw [← dget_isSome_iff_mem_dkeys, hCk] at hmem
          exact Bool.noConfusion hmem
        rw [hS2]
        rfl
    | some fv =>
      rcases features_cases name with hF | hF | hF | hF
      · rw [hF] at hFk
        exact absurd hFk (by simp)
      · rw [hF] at hFk
        simp only [dget_cons] at hFk
        by_cases hkeq : ("font-weight" : String) = k
        · rw [if_pos hkeq] at hFk
          injection hFk with hfv
          subst hfv
          subst hkeq
          have hCfw : dget (computedOf selmap name attrs) "font-weight" = some "bold" := by
            unfold computedOf
            rw [dget_merge_of_nodup _ _ (features_nodup name), hF]
            simp [dget_cons]
          have hTfw : dget (normalize_tracked_properties (computedOf selmap name attrs))
              "font-weight" = some "bold" := by
            simp only [dget_ntp_fw, hCfw]
            rw [if_pos (show ("bold" : String) ≠ "" ∧
              pyLower (pyStrip "bold") ∈ bold_values from by decide)]
          have hFifw : dget (finalOf (computedOf selmap name attrs)) "font-weight" =
              some "bold" := by
            rw [final_dget, hTfw]
            rfl
          rw [hFifw]
          rfl
        · rw [if_neg hkeq] at hFk
          exact absurd hFk (by simp)
      · rw [hF] at hFk
        simp only [dget_cons] at hFk
        by_cases hkeq : ("font-style" : String) = k
        · rw [if_pos hkeq] at hFk
          injection hFk with hfv
          subst hfv
          subst hkeq
          have hCfs : dget (computedOf selmap name attrs) "font-style" = some "italic" := by
            unfold computedOf
            rw [dget_merge_of_nodup _ _ (features_nodup name), hF]
            simp [dget_cons]
          have hTfs : dget (normalize_tracked_properties (computedOf selmap name attrs))
              "font-style" = some "italic" := by
            simp only [dget_ntp_fs, hCfs]
            rw [if_pos (show ("italic" : String) ≠ "" ∧
              pyLower (pyStrip "italic") ∈ italic_values from by decide)]
          have hFifs : dget (finalOf (computedOf selmap name attrs)) "font-style" =
              some "italic" := by
            rw [final_dget, hTfs]
            rfl
          rw [hFifs]
          rfl
        · rw [if_neg hkeq] at hFk
          exact absurd hFk (by simp)
      · rw [hF] at hFk
        simp only [dget_cons] at hFk
        by_cases hkeq : ("text-decoration" : String) = k
        · rw [if_pos hkeq] at hFk
          injection hFk with hfv
          subst hfv
          subst hkeq
          have hCtd : dget (computedOf selmap name attrs) "text-decoration" =
              some "underline" := by
            unfold computedOf
            rw [dget_merge_of_nodup _ _ (features_nodup name), hF]
            simp [dget_cons]
          have hTtd : dget (normalize_tracked_properties (computedOf selmap name attrs))
              "text-decoration" = some "underline" := by
            simp only [dget_ntp_td, hCtd]
            rw [if_pos (show ("underline" : String) ≠ "" ∧
              pyInStr "underline" (pyLower "underline") = true from by decide)]
          have hFitd : dget (finalOf (computedOf selmap name attrs)) "text-decoration" =
              some "underline" := by
            rw [final_dget, hTtd]
            rfl
          rw [hFitd]
          rfl
        · rw [if_neg hkeq] at hFk
          exact absurd hFk (by simp)
  have hT2 : normalize_tracked_properties (computedOf selmap name attrs2) =
      normalize_tracked_properties (computedOf selmap name attrs) := by
    have he1 : normalize_tracked_properties (computedOf selmap name attrs2) =
        normalize_tracked_properties (finalOf (computedOf selmap name attrs)) :=
      ntp_congr (hC2 "font-weight") (hC2 "font-style") (hC2 "text-decoration")
        (hC2 "text-align")
    rw [he1]
    exact ntp_or_eq hwfC (fun k => final_dget k)
  have hFi2 : ∀ k, dget (finalOf (computedOf selmap name attrs2)) k =
      dget (finalOf (computedOf selmap name attrs)) k := by
    intro k
    rw [final_dget, hT2, hC2 k, final_dget]
    cases dget (normalize_tracked_properties (computedOf selmap name attrs)) k <;> rfl
  have hndC2 : NodupKeys (computedOf selmap name attrs2) := by
    unfold computedOf
    exact nodupKeys_merge _ _
      (nodupKeys_merge _ _ (nodup_selFold name attrs2 selmap [] nodupKeys_nil))
  have hndFi2 : NodupKeys (finalOf (computedOf selmap name attrs2)) := by
    unfold finalOf
    exact nodupKeys_merge _ _ (nodup_filter_keys _ hndC2)
  have hser : serializeStyle (finalOf (computedOf selmap name attrs2)) =
      serializeStyle (finalOf (computedOf selmap name attrs)) := by
    unfold serializeStyle
    rw [sortPairs_eq_of_propEq hndFi2 hndFi hFi2]
  have hC2ne : (computedOf selmap name attrs2).isEmpty = false := by
    apply isEmpty_false_of_ne_nil
    intro hh
    apply hFik0
    rw [← hC2 k0, hh]
    rfl
  have hFi2ne : (finalOf (computedOf selmap name attrs2)).isEmpty = false :=
    finalOf_isEmpty_false hC2ne
  simp only [rewriteAttrs]
  rw [if_neg (by simp [hC2ne]), if_neg (by simp [hFi2ne]), hser,
    dinsert_no_change hnd2 hsty, ddel_of_dget_none hclass]

theorem rewriteAttrs_no_class (selmap : SelectorStyleMap) (name : String)
    (attrs : List (String × String)) :
    dget (rewriteAttrs selmap name attrs) "class" = none := by
  simp only [rewriteAttrs]
  split_ifs <;> rw [dget_ddel, if_pos rfl]

theorem rewriteAttrs_idem (selmap : SelectorStyleMap) (name : String)
    {attrs : List (String × String)} (hm : WFSelMap selmap) (ha : NodupKeys attrs) :
    rewriteAttrs selmap name (rewriteAttrs selmap name attrs) =
      rewriteAttrs selmap name attrs := by
  by_cases hCe : (computedOf selmap name attrs).isEmpty = true
  · have hCnil := eq_nil_of_isEmpty hCe
    have h1 : rewriteAttrs selmap name attrs = ddel attrs "class" := by
      simp only [rewriteAttrs]
      rw [if_pos hCe]
    rw [h1]
    apply rewriteAttrs_fixed_empty selmap name hCnil
    · rw [dget_ddel, if_pos rfl]
    · rw [dget_ddel, if_neg (by decide)]
    · rw [dget_ddel, if_neg (by decide)]
  · have hCne : (computedOf selmap name attrs).isEmpty = false := by
      cases h : (computedOf selmap name attrs).isEmpty with
      | false => rfl
      | true => exact absurd h hCe
    have h1 : rewriteAttrs selmap name attrs =
        ddel (dinsert attrs "style"
          (serializeStyle (finalOf (computedOf selmap name attrs)))) "class" := by
      simp only [rewriteAttrs]
      rw [if_neg hCe, if_neg (by simp [finalOf_isEmpty_false hCne])]
    rw [h1]
    apply rewriteAttrs_fixed_main selmap name hm hCne
    · exact nodup_ddel _ (nodupKeys_dinsert _ _ ha)
    · rw [dget_ddel, if_pos rfl]
    · rw [dget_ddel, if_neg (by decide), dget_dinsert, if_neg (by decide)]
    · rw [dget_ddel, if_neg (by decide), dget_dinsert, if_pos rfl]

end RewriteIdem

mutual

/-- Tree form of `rewriteAttrs_idem`: rewriting a rewritten node changes
nothing, and the rewritten node carries no `class` attribute anywhere. -/
theorem rewriteNode_idem_noClass (selmap : SelectorStyleMap) (hm : WFSelMap selmap) :
    ∀ t : Node, nodeWFB t = true →
      rewriteNode selmap (rewriteNode selmap t) = rewriteNode selmap t ∧
        noClassNodeB (rewriteNode selmap t) = true
  | .textNode s, _ => ⟨rfl, rfl⟩
  | .elem name attrs children, hwf => by
    unfold nodeWFB at hwf
    rw [Bool.and_eq_true] at hwf
    have hwa : NodupKeys attrs := of_decide_eq_true hwf.1
    have hwc : nodesWFB children = true := hwf.2
    have hch := rewriteNodes_idem_noClass selmap hm children hwc
    refine ⟨?_, ?_⟩
    · show Node.elem name (rewriteAttrs selmap name (rewriteAttrs selmap name attrs))
        (rewriteNodes selmap (rewriteNodes selmap children)) =
        Node.elem name (rewriteAttrs selmap name attrs) (rewriteNodes selmap children)
      rw [rewriteAttrs_idem selmap name hm hwa, hch.1]
    · show ((dget (rewriteAttrs selmap name attrs) "class").isNone &&
        noClassNodesB (rewriteNodes selmap children)) = true
      rw [rewriteAttrs_no_class, hch.2]
      rfl

/-- `rewriteNode_idem_noClass` over a child list. -/
theorem rewriteNodes_idem_noClass (selmap : SelectorStyleMap) (hm : WFSelMap selmap) :
    ∀ ts : List Node, nodesWFB ts = true →
      rewriteNodes selmap (rewriteNodes selmap ts) = rewriteNodes selmap ts ∧
        noClassNodesB (rewriteNodes selmap ts) = true
  | [], _ => ⟨rfl, rfl⟩
  | t :: ts, hwf => by
    unfold nodesWFB at hwf
    rw [Bool.and_eq_true] at hwf
    have h1 := rewriteNode_idem_noClass selmap hm t hwf.1
    have h2 := rewriteNodes_idem_noClass selmap hm ts hwf.2
    refine ⟨?_, ?_⟩
    · show rewriteNode selmap (rewriteNode selmap t) ::
        rewriteNodes selmap (rewriteNodes selmap ts) =
        rewriteNode selmap t :: rewriteNodes selmap ts
      rw [h1.1, h2.1]
    · show (noClassNodeB (rewriteNode selmap t) &&
        noClassNodesB (rewriteNodes selmap ts)) = true
      rw [h1.2, h2.2]
      rfl

end

/-- **C4.** The Formatting Emitter is idempotent: with a well-formed
selector-style map (as produced by the Rule Parser) and a document whose
attribute sets are genuine dicts, running the style-application pass of
`apply_styles_to_soup` a second time on its own output yields exactly the
same tree — in particular the same inline `style` attribute on every
element — and no element of the output carries a `class` attribute. -/
theorem emitter_idempotent (selmap : SelectorStyleMap) (soup : Node) (book chapter : Nat)
    (hm : WFSelMap selmap) (hwf : nodeWFB soup = true) :
    (apply_styles_to_soup (apply_styles_to_soup soup selmap book chapter).1
        selmap book chapter).1 = (apply_styles_to_soup soup selmap book chapter).1 ∧
      noClassNodeB (apply_styles_to_soup soup selmap book chapter).1 = true :=
  rewriteNode_idem_noClass selmap hm soup hwf

/-- Witness for C4: a concrete map and document satisfying the
hypotheses, with the conclusion delivered by the theorem itself. -/
theorem emitter_idempotent_witness :
    (WFSelMap [(".title", [("font-weight", "bold"), ("font-style", "italic")]),
        ("p", [("text-align", "center")])] ∧
      nodeWFB (.elem "div" []
        [.elem "p" [("class", "title"), ("style", "font-weight:700")] [.textNode "x"],
         .elem "b" [("id", "a")] []]) = true) ∧
    ((apply_styles_to_soup
        (apply_styles_to_soup
          (.elem "div" []
            [.elem "p" [("class", "title"), ("style", "font-weight:700")] [.textNode "x"],
             .elem "b" [("id", "a")] []])
          [(".title", [("font-weight", "bold"), ("font-style", "italic")]),
           ("p", [("text-align", "center")])] 1 2).1
        [(".title", [("font-weight", "bold"), ("font-style", "italic")]),
         ("p", [("text-align", "center")])] 1 2).1 =
      (apply_styles_to_soup
        (.elem "div" []
          [.elem "p" [("class", "title"), ("style", "font-weight:700")] [.textNode "x"],
           .elem "b" [("id", "a")] []])
        [(".title", [("font-weight", "bold"), ("font-style", "italic")]),
         ("p", [("text-align", "center")])] 1 2).1 ∧
      noClassNodeB (apply_styles_to_soup
        (.elem "div" []
          [.elem "p" [("class", "title"), ("style", "font-weight:700")] [.textNode "x"],
           .elem "b" [("id", "a")] []])
        [(".title", [("font-weight", "bold"), ("font-style", "italic")]),
         ("p", [("text-align", "center")])] 1 2).1 = true) :=
  ⟨⟨by decide, by decide⟩,
    emitter_idempotent
      [(".title", [("font-weight", "bold"), ("font-style", "italic")]),
       ("p", [("text-align", "center")])]
      (.elem "div" []
        [.elem "p" [("class", "title"), ("style", "font-weight:700")] [.textNode "x"],
         .elem "b" [("id", "a")] []]) 1 2 (by decide) (by decide)⟩

/-! ## C5: end-to-end scenario -/

/-- C5: parsing `.title{font-weight:bold}` and `#x{font-style:italic}`
and applying them to `<h1 class="title" id="x">Intro</h1>` yields exactly
one FormattedEntry labelled `"bold, italic"`, rewrites the `h1`'s style
attribute to `"font-style:italic;font-weight:bold;"` (keys in
alphabetical order, each `key:value;`), removes the `class` attribute and
leaves `id` untouched. -/
theorem end_to_end_title_scenario :
    parse_css_sources
        [some [.styleRule [".title"] [("font-weight", "bold")],
               .styleRule ["#x"] [("font-style", "italic")]]] [] =
      some ([(".title", [("font-weight", "bold")]), ("#x", [("font-style", "italic")])],
        [⟨[("font-style", "italic")], ["#x"]⟩, ⟨[("font-weight", "bold")], [".title"]⟩]) ∧
    apply_styles_to_soup (.elem "h1" [("class", "title"), ("id", "x")] [.textNode "Intro"])
        [(".title", [("font-weight", "bold")]), ("#x", [("font-style", "italic")])] 1 1 =
      (.elem "h1" [("id", "x"), ("style", "font-style:italic;font-weight:bold;")]
         [.textNode "Intro"],
       [⟨1, 1, "h1", "Intro", "bold, italic"⟩]) := by
  exact ⟨by rfl, by rfl⟩

/-! ## C6: per-branch ancestor cascade -/

/-- C6: with CSS `.b { font-weight: bold }` over
`<div class="b"><p>Hello <span>world</span></p></div>`, both text nodes
receive the bold label; giving the span inline `style="font-weight:400"`
leaves "Hello" bold but removes "world" from the output entirely — the
descendant's override affects only its own branch. -/
theorem cascade_per_branch_scenario :
    apply_styles_to_soup
        (.elem "div" [("class", "b")]
          [.elem "p" [] [.textNode "Hello ", .elem "span" [] [.textNode "world"]]])
        [(".b", [("font-weight", "bold")])] 1 1 =
      (.elem "div" [("style", "font-weight:bold;")]
         [.elem "p" [] [.textNode "Hello ", .elem "span" [] [.textNode "world"]]],
       [⟨1, 1, "p", "Hello", "bold"⟩, ⟨1, 1, "span", "world", "bold"⟩]) ∧
    apply_styles_to_soup
        (.elem "div" [("class", "b")]
          [.elem "p" []
            [.textNode "Hello ",
             .elem "span" [("style", "font-weight:400")] [.textNode "world"]]])
        [(".b", [("font-weight", "bold")])] 1 1 =
      (.elem "div" [("style", "font-weight:bold;")]
         [.elem "p" []
           [.textNode "Hello ",
            .elem "span" [("style", "font-weight:400;")] [.textNode "world"]]],
       [⟨1, 1, "p", "Hello", "bold"⟩]) := by
  exact ⟨by rfl, by rfl⟩

end PH
